import Mathlib

/-!
Verification development for the response-shaping layer of the n8n MCP server
(src/utils/response-formatter.ts, src/utils/json-serializer.ts,
src/utils/pagination.ts).

The JavaScript value universe relevant to this layer (JSON-style data plus
BigInt, which `JSON.stringify` refuses to serialize) is embedded as a
first-order mutual inductive family: a value is null, a boolean, a number
(restricted to integers), a string, a BigInt, an ordered array of values, or
an object, i.e. an ordered list of key/value pairs (JS objects with
non-index string keys enumerate in insertion order).  Strings are assumed to
contain no characters that `JSON.stringify` escapes, so the serialized form
of a string is just the string surrounded by double quotes; `String.length`
then coincides with the JS UTF-16 code-unit length for the ASCII strings
used throughout.

Fallible JS operations (`JSON.stringify` throws a `TypeError` on a BigInt)
are embedded as `Except Unit` computations: `.error ()` marks a thrown
exception, and a caller that does not catch it propagates it, exactly as an
uncaught JS exception propagates.
-/

set_option maxRecDepth 20000

mutual

inductive JVal where
  | jnull : JVal
  | jbool : Bool → JVal
  | jnum : Int → JVal
  | jstr : String → JVal
  | jbig : Int → JVal
  | jarr : JList → JVal
  | jobj : JEnts → JVal
  deriving Repr

inductive JList where
  | nil : JList
  | cons : JVal → JList → JList
  deriving Repr

inductive JEnts where
  | nil : JEnts
  | cons : String → JVal → JEnts → JEnts
  deriving Repr

end

-- Boolean structural equality on values; proven below to reflect `Eq`,
-- which yields `DecidableEq` instances for the family.
mutual

def JVal.beqv : JVal → JVal → Bool
  | .jnull, .jnull => true
  | .jbool a, .jbool b => a == b
  | .jnum a, .jnum b => a == b
  | .jstr a, .jstr b => a == b
  | .jbig a, .jbig b => a == b
  | .jarr a, .jarr b => JList.beql a b
  | .jobj a, .jobj b => JEnts.beqe a b
  | _, _ => false

def JList.beql : JList → JList → Bool
  | .nil, .nil => true
  | .cons a as, .cons b bs => JVal.beqv a b && JList.beql as bs
  | _, _ => false

def JEnts.beqe : JEnts → JEnts → Bool
  | .nil, .nil => true
  | .cons k a as, .cons l b bs => k == l && JVal.beqv a b && JEnts.beqe as bs
  | _, _ => false

end

mutual

theorem JVal.beqv_refl : ∀ v : JVal, JVal.beqv v v = true
  | .jnull => rfl
  | .jbool a => by simp [JVal.beqv]
  | .jnum a => by simp [JVal.beqv]
  | .jstr a => by simp [JVal.beqv]
  | .jbig a => by simp [JVal.beqv]
  | .jarr xs => by simp [JVal.beqv, JList.beql_refl xs]
  | .jobj kvs => by simp [JVal.beqv, JEnts.beqe_refl kvs]

theorem JList.beql_refl : ∀ xs : JList, JList.beql xs xs = true
  | .nil => rfl
  | .cons x xs => by simp [JList.beql, JVal.beqv_refl x, JList.beql_refl xs]

theorem JEnts.beqe_refl : ∀ kvs : JEnts, JEnts.beqe kvs kvs = true
  | .nil => rfl
  | .cons k v kvs => by simp [JEnts.beqe, JVal.beqv_refl v, JEnts.beqe_refl kvs]

end

mutual

theorem JVal.beqv_sound : ∀ a b : JVal, JVal.beqv a b = true → a = b
  | .jnull, .jnull, _ => rfl
  | .jbool a, .jbool b, h => by simpa [JVal.beqv] using h
  | .jnum a, .jnum b, h => by simpa [JVal.beqv] using h
  | .jstr a, .jstr b, h => by simpa [JVal.beqv] using h
  | .jbig a, .jbig b, h => by simpa [JVal.beqv] using h
  | .jarr a, .jarr b, h => by
      have : JList.beql a b = true := by simpa [JVal.beqv] using h
      rw [JList.beql_sound a b this]
  | .jobj a, .jobj b, h => by
      have : JEnts.beqe a b = true := by simpa [JVal.beqv] using h
      rw [JEnts.beqe_sound a b this]
  | .jnull, .jbool _, h => by simp [JVal.beqv] at h
  | .jnull, .jnum _, h => by simp [JVal.beqv] at h
  | .jnull, .jstr _, h => by simp [JVal.beqv] at h
  | .jnull, .jbig _, h => by simp [JVal.beqv] at h
  | .jnull, .jarr _, h => by simp [JVal.beqv] at h
  | .jnull, .jobj _, h => by simp [JVal.beqv] at h
  | .jbool _, .jnull, h => by simp [JVal.beqv] at h
  | .jbool _, .jnum _, h => by simp [JVal.beqv] at h
  | .jbool _, .jstr _, h => by simp [JVal.beqv] at h
  | .jbool _, .jbig _, h => by simp [JVal.beqv] at h
  | .jbool _, .jarr _, h => by simp [JVal.beqv] at h
  | .jbool _, .jobj _, h => by simp [JVal.beqv] at h
  | .jnum _, .jnull, h => by simp [JVal.beqv] at h
  | .jnum _, .jbool _, h => by simp [JVal.beqv] at h
  | .jnum _, .jstr _, h => by simp [JVal.beqv] at h
  | .jnum _, .jbig _, h => by simp [JVal.beqv] at h
  | .jnum _, .jarr _, h => by simp [JVal.beqv] at h
  | .jnum _, .jobj _, h => by simp [JVal.beqv] at h
  | .jstr _, .jnull, h => by simp [JVal.beqv] at h
  | .jstr _, .jbool _, h => by simp [JVal.beqv] at h
  | .jstr _, .jnum _, h => by simp [JVal.beqv] at h
  | .jstr _, .jbig _, h => by simp [JVal.beqv] at h
  | .jstr _, .jarr _, h => by simp [JVal.beqv] at h
  | .jstr _, .jobj _, h => by simp [JVal.beqv] at h
  | .jbig _, .jnull, h => by simp [JVal.beqv] at h
  | .jbig _, .jbool _, h => by simp [JVal.beqv] at h
  | .jbig _, .jnum _, h => by simp [JVal.beqv] at h
  | .jbig _, .jstr _, h => by simp [JVal.beqv] at h
  | .jbig _, .jarr _, h => by simp [JVal.beqv] at h
  | .jbig _, .jobj _, h => by simp [JVal.beqv] at h
  | .jarr _, .jnull, h => by simp [JVal.beqv] at h
  | .jarr _, .jbool _, h => by simp [JVal.beqv] at h
  | .jarr _, .jnum _, h => by simp [JVal.beqv] at h
  | .jarr _, .jstr _, h => by simp [JVal.beqv] at h
  | .jarr _, .jbig _, h => by simp [JVal.beqv] at h
  | .jarr _, .jobj _, h => by simp [JVal.beqv] at h
  | .jobj _, .jnull, h => by simp [JVal.beqv] at h
  | .jobj _, .jbool _, h => by simp [JVal.beqv] at h
  | .jobj _, .jnum _, h => by simp [JVal.beqv] at h
  | .jobj _, .jstr _, h => by simp [JVal.beqv] at h
  | .jobj _, .jbig _, h => by simp [JVal.beqv] at h
  | .jobj _, .jarr _, h => by simp [JVal.beqv] at h

theorem JList.beql_sound : ∀ a b : JList, JList.beql a b = true → a = b
  | .nil, .nil, _ => rfl
  | .cons x xs, .cons y ys, h => by
      have h1 : JVal.beqv x y = true := by
        have := h
        simp [JList.beql, Bool.and_eq_true] at this
        exact this.1
      have h2 : JList.beql xs ys = true := by
        have := h
        simp [JList.beql, Bool.and_eq_true] at this
        exact this.2
      rw [JVal.beqv_sound x y h1, JList.beql_sound xs ys h2]
  | .nil, .cons _ _, h => by simp [JList.beql] at h
  | .cons _ _, .nil, h => by simp [JList.beql] at h

theorem JEnts.beqe_sound : ∀ a b : JEnts, JEnts.beqe a b = true → a = b
  | .nil, .nil, _ => rfl
  | .cons k x xs, .cons l y ys, h => by
      have h0 : k = l := by
        have := h
        simp [JEnts.beqe, Bool.and_eq_true] at this
        exact this.1.1
      have h1 : JVal.beqv x y = true := by
        have := h
        simp [JEnts.beqe, Bool.and_eq_true] at this
        exact this.1.2
      have h2 : JEnts.beqe xs ys = true := by
        have := h
        simp [JEnts.beqe, Bool.and_eq_true] at this
        exact this.2
      rw [h0, JVal.beqv_sound x y h1, JEnts.beqe_sound xs ys h2]
  | .nil, .cons _ _ _, h => by simp [JEnts.beqe] at h
  | .cons _ _ _, .nil, h => by simp [JEnts.beqe] at h

end

instance : DecidableEq JVal := fun a b =>
  match h : JVal.beqv a b with
  | true => isTrue (JVal.beqv_sound a b h)
  | false => isFalse (fun he => by subst he; rw [JVal.beqv_refl] at h; cases h)

instance : DecidableEq JList := fun a b =>
  match h : JList.beql a b with
  | true => isTrue (JList.beql_sound a b h)
  | false => isFalse (fun he => by subst he; rw [JList.beql_refl] at h; cases h)

instance : DecidableEq JEnts := fun a b =>
  match h : JEnts.beqe a b with
  | true => isTrue (JEnts.beqe_sound a b h)
  | false => isFalse (fun he => by subst he; rw [JEnts.beqe_refl] at h; cases h)

/-- Conversion from the first-order spine to ordinary Lean lists (the
top-level element list of a JS array). -/
def JList.toList : JList → List JVal
  | .nil => []
  | .cons x xs => x :: JList.toList xs

/-- Conversion from a Lean list of elements to the first-order spine. -/
def JList.ofList : List JVal → JList
  | [] => .nil
  | x :: xs => .cons x (JList.ofList xs)

/-- Conversion from the entry spine to a Lean association list
(the result of `Object.entries`). -/
def JEnts.toList : JEnts → List (String × JVal)
  | .nil => []
  | .cons k v kvs => (k, v) :: JEnts.toList kvs

/-- Conversion from a Lean association list to the entry spine. -/
def JEnts.ofList : List (String × JVal) → JEnts
  | [] => .nil
  | (k, v) :: kvs => .cons k v (JEnts.ofList kvs)

theorem JList.toList_ofList (xs : List JVal) : (JList.ofList xs).toList = xs := by
  induction xs with
  | nil => rfl
  | cons x xs ih => simp [JList.ofList, JList.toList, ih]

theorem JList.ofList_toList : ∀ xs : JList, JList.ofList xs.toList = xs
  | .nil => rfl
  | .cons x xs => by simp [JList.ofList, JList.toList, JList.ofList_toList xs]

theorem JEnts.toListE_ofListE (kvs : List (String × JVal)) :
    (JEnts.ofList kvs).toList = kvs := by
  induction kvs with
  | nil => rfl
  | cons kv kvs ih => cases kv; simp [JEnts.ofList, JEnts.toList, ih]

theorem JEnts.ofListE_toListE : ∀ kvs : JEnts, JEnts.ofList kvs.toList = kvs
  | .nil => rfl
  | .cons k v kvs => by simp [JEnts.ofList, JEnts.toList, JEnts.ofListE_toListE kvs]

/-- Number of elements of a JS array. -/
def JList.len (xs : JList) : Nat := xs.toList.length

/-- Number of entries of a JS object. -/
def JEnts.len (kvs : JEnts) : Nat := kvs.toList.length

instance {ε α : Type} [DecidableEq ε] [DecidableEq α] : DecidableEq (Except ε α) :=
  fun x y =>
  match x, y with
  | .ok a, .ok b =>
      if h : a = b then isTrue (by rw [h])
      else isFalse (fun he => h (by injection he))
  | .error a, .error b =>
      if h : a = b then isTrue (by rw [h])
      else isFalse (fun he => h (by injection he))
  | .ok _, .error _ => isFalse (fun he => by injection he)
  | .error _, .ok _ => isFalse (fun he => by injection he)

/-- Serialized form of a string: surrounding double quotes (escaping is not
modeled; see the module comment). -/
def quoteStr (s : String) : String := "\"" ++ s ++ "\""

/-- Join a list of strings with a separator, as `Array.prototype.join`. -/
def joinSep (sep : String) : List String → String
  | [] => ""
  | [s] => s
  | s :: rest => s ++ sep ++ joinSep sep rest

mutual

/-- Embedding of compact `JSON.stringify(v)`: returns the serialized text, or
raises (`.error ()`) when the value contains a BigInt, which JSON.stringify
refuses to serialize. -/
def jsonStringify : JVal → Except Unit String
  | .jnull => .ok "null"
  | .jbool b => .ok (cond b "true" "false")
  | .jnum n => .ok (toString n)
  | .jstr s => .ok (quoteStr s)
  | .jbig _ => .error ()
  | .jarr xs =>
      match jsonStringifyL xs with
      | .error e => .error e
      | .ok parts => .ok ("[" ++ joinSep "," parts ++ "]")
  | .jobj kvs =>
      match jsonStringifyE kvs with
      | .error e => .error e
      | .ok parts => .ok ("\x7b" ++ joinSep "," parts ++ "\x7d")

def jsonStringifyL : JList → Except Unit (List String)
  | .nil => .ok []
  | .cons x xs =>
      match jsonStringify x with
      | .error e => .error e
      | .ok s =>
          match jsonStringifyL xs with
          | .error e => .error e
          | .ok rest => .ok (s :: rest)

def jsonStringifyE : JEnts → Except Unit (List String)
  | .nil => .ok []
  | .cons k v kvs =>
      match jsonStringify v with
      | .error e => .error e
      | .ok s =>
          match jsonStringifyE kvs with
          | .error e => .error e
          | .ok rest => .ok ((quoteStr k ++ ":" ++ s) :: rest)

end

/-- Indentation string used by `JSON.stringify(v, null, 2)` at nesting
depth d: 2·d spaces. -/
def jsonIndent (d : Nat) : String := String.mk (List.replicate (2 * d) ' ')

mutual

/-- Embedding of pretty `JSON.stringify(v, null, 2)` at nesting depth d. -/
def jsonStringifyPretty : JVal → Nat → Except Unit String
  | .jnull, _ => .ok "null"
  | .jbool b, _ => .ok (cond b "true" "false")
  | .jnum n, _ => .ok (toString n)
  | .jstr s, _ => .ok (quoteStr s)
  | .jbig _, _ => .error ()
  | .jarr .nil, _ => .ok "[]"
  | .jarr (.cons x xs), d =>
      match jsonStringifyPrettyL (.cons x xs) (d + 1) with
      | .error e => .error e
      | .ok parts =>
          .ok ("[\n" ++ joinSep ",\n" parts ++ "\n" ++ jsonIndent d ++ "]")
  | .jobj .nil, _ => .ok "\x7b\x7d"
  | .jobj (.cons k v kvs), d =>
      match jsonStringifyPrettyE (.cons k v kvs) (d + 1) with
      | .error e => .error e
      | .ok parts =>
          .ok ("\x7b\n" ++ joinSep ",\n" parts ++ "\n" ++ jsonIndent d ++ "\x7d")

def jsonStringifyPrettyL : JList → Nat → Except Unit (List String)
  | .nil, _ => .ok []
  | .cons x xs, d =>
      match jsonStringifyPretty x d with
      | .error e => .error e
      | .ok s =>
          match jsonStringifyPrettyL xs d with
          | .error e => .error e
          | .ok rest => .ok ((jsonIndent d ++ s) :: rest)

def jsonStringifyPrettyE : JEnts → Nat → Except Unit (List String)
  | .nil, _ => .ok []
  | .cons k v kvs, d =>
      match jsonStringifyPretty v d with
      | .error e => .error e
      | .ok s =>
          match jsonStringifyPrettyE kvs d with
          | .error e => .error e
          | .ok rest => .ok ((jsonIndent d ++ quoteStr k ++ ": " ++ s) :: rest)

end

/-!
Embedding of src/utils/json-serializer.ts.
-/

mutual

/-- Embedding of `filterObjectFields(data, options)` for the options record
`serializeToJson` passes it (no `includeFields`, no `excludeFields`,
`maxDepth` = Infinity, `_currentDepth` = 0): the depth test never fires and
both key filters keep every key, so the traversal rebuilds the value
unchanged. -/
def filterObjectFields : JVal → JVal
  | .jnull => .jnull
  | .jbool b => .jbool b
  | .jnum n => .jnum n
  | .jstr s => .jstr s
  | .jbig n => .jbig n
  | .jarr xs => .jarr (filterObjectFieldsL xs)
  | .jobj kvs => .jobj (filterObjectFieldsE kvs)

def filterObjectFieldsL : JList → JList
  | .nil => .nil
  | .cons x xs => .cons (filterObjectFields x) (filterObjectFieldsL xs)

def filterObjectFieldsE : JEnts → JEnts
  | .nil => .nil
  | .cons k v kvs => .cons k (filterObjectFields v) (filterObjectFieldsE kvs)

end

/-- Embedding of `serializeToJson(data)` as called by `needsChunking`: filter
fields with default options, then `JSON.stringify(filteredData, null, 2)`. -/
def serializeToJson (v : JVal) : Except Unit String :=
  jsonStringifyPretty (filterObjectFields v) 0

mutual

/-- Embedding of the inner `sizeOf` closure of `approximateObjectSize`.
The source guards composites with an identity-keyed `visited` set; in this
tree embedding every composite is a fresh identity (a JS value built from
literals has no shared or cyclic substructure), so `visited.has(value)` is
always false and the guard is dropped here.  The identity-sensitive code
path, including the visited set, is embedded faithfully in the heap model
below (`sizeOfRef`), and theorem `c7` connects the two. -/
def sizeOfV : JVal → Nat
  | .jnull => 4
  | .jbool _ => 4
  | .jnum _ => 8
  | .jstr s => 2 * s.length
  | .jbig _ => 0
  | .jarr xs => 8 + sizeOfL xs
  | .jobj kvs => 8 + sizeOfE kvs

def sizeOfL : JList → Nat
  | .nil => 0
  | .cons x xs => sizeOfV x + sizeOfL xs

def sizeOfE : JEnts → Nat
  | .nil => 0
  | .cons k v kvs => 2 * k.length + sizeOfV v + sizeOfE kvs

end

/-- Embedding of `approximateObjectSize(obj)`: the top-level switch handles
primitives directly (BigInt falls through to `sizeOf`, whose type switch
assigns it 0); arrays and objects go through the recursive `sizeOf`. -/
def approximateObjectSize : JVal → Nat
  | .jnull => 4
  | .jbool _ => 4
  | .jnum _ => 8
  | .jstr s => 2 * s.length
  | v => sizeOfV v

/-- Embedding of `isObjectTooLarge(obj, maxSizeBytes)`. -/
def isObjectTooLarge (v : JVal) (maxSizeBytes : Nat) : Bool :=
  approximateObjectSize v > maxSizeBytes

/-!
Embedding of src/utils/response-formatter.ts.
-/

/-- Embedding of `DEFAULT_LIMITS`. -/
def MAX_RESPONSE_SIZE : Nat := 1000000

/-- Embedding of `DEFAULT_LIMITS.MAX_ARRAY_ITEMS`. -/
def MAX_ARRAY_ITEMS : Nat := 50

/-- Embedding of `DEFAULT_LIMITS.MAX_OBJECT_DEPTH`. -/
def MAX_OBJECT_DEPTH : Nat := 5

/-- Embedding of `DEFAULT_LIMITS.MAX_CHUNK_SIZE`. -/
def MAX_CHUNK_SIZE : Nat := 500000

/-- Embedding of the `FormattingOptions` record; a `none` field means the
property is absent and the default applies. -/
structure FormattingOptions where
  maxResponseSize : Option Nat := none
  maxArrayItems : Option Nat := none
  maxObjectDepth : Option Nat := none
  maxChunkSize : Option Nat := none
  deriving Repr, DecidableEq

/-- Embedding of the `TruncationMetadata` record as produced by
`formatTruncatedResponse` (the `originalSize` field is never set there). -/
structure TruncationMetadata where
  wasTruncated : Bool
  itemsOmitted : Option Nat
  reason : Option String
  deriving Repr, DecidableEq

/-- Embedding of `needsChunking(data, options)`: a thrown size estimate or
serialization is caught and reported as `true`. -/
def needsChunking (v : JVal) (options : FormattingOptions) : Bool :=
  let maxSize := options.maxResponseSize.getD MAX_RESPONSE_SIZE
  if isObjectTooLarge v maxSize then true
  else
    match serializeToJson v with
    | .ok jsonString => jsonString.length > maxSize
    | .error _ => true

/-- Mutable state of the `formatValue` closure inside
`formatTruncatedResponse`: the captured variables `wasTruncated`,
`itemsOmitted` and `reason`, threaded explicitly. -/
structure TruncState where
  wasTruncated : Bool
  itemsOmitted : Nat
  reason : Option String
  deriving Repr, DecidableEq

/-- The `reason = reason || msg` update (first cause wins). -/
def orReason (r : Option String) (msg : String) : Option String :=
  match r with
  | some x => some x
  | none => some msg

/-- Sentinel replacing a subtree beyond the depth limit. -/
def depthSentinel : String := "[Object depth limit exceeded]"

/-- The depth-exceeded message. -/
def depthMsg : String := "Maximum object depth exceeded"

/-- The array-size message. -/
def arrayMsg : String := "Array size limit exceeded"

/-- Synthetic marker element appended to a truncated array. -/
def moreItems (n : Nat) : String := "... " ++ toString n ++ " more items"

mutual

/-- Embedding of the recursive `formatValue(value, depth)` closure of
`formatTruncatedResponse`; the depth test precedes every other case. -/
def formatValue (maxAI maxOD : Nat) : JVal → Nat → TruncState → JVal × TruncState
  | v, depth, st =>
    if depth > maxOD then
      (.jstr depthSentinel,
       { wasTruncated := true, itemsOmitted := st.itemsOmitted,
         reason := orReason st.reason depthMsg })
    else
      match v with
      | .jnull => (.jnull, st)
      | .jarr xs =>
          let n := xs.len
          if n > maxAI then
            let st1 : TruncState :=
              { wasTruncated := true, itemsOmitted := st.itemsOmitted + (n - maxAI),
                reason := orReason st.reason arrayMsg }
            let (ys, st2) := formatValueTake maxAI maxOD maxAI xs (depth + 1) st1
            (.jarr (JList.ofList (ys.toList ++ [.jstr (moreItems (n - maxAI))])), st2)
          else
            let (ys, st1) := formatValueL maxAI maxOD xs (depth + 1) st
            (.jarr ys, st1)
      | .jobj kvs =>
          let (ys, st1) := formatValueE maxAI maxOD kvs (depth + 1) st
          (.jobj ys, st1)
      | .jbool b => (.jbool b, st)
      | .jnum n => (.jnum n, st)
      | .jstr s => (.jstr s, st)
      | .jbig n => (.jbig n, st)

/-- The `value.map(item => formatValue(item, depth + 1))` traversal. -/
def formatValueL (maxAI maxOD : Nat) : JList → Nat → TruncState → JList × TruncState
  | .nil, _, st => (.nil, st)
  | .cons x xs, depth, st =>
      let (y, st1) := formatValue maxAI maxOD x depth st
      let (ys, st2) := formatValueL maxAI maxOD xs depth st1
      (.cons y ys, st2)

/-- The `value.slice(0, maxArrayItems).map(item => formatValue(item, depth + 1))`
traversal, fused into one pass: format the first k elements, drop the rest. -/
def formatValueTake (maxAI maxOD : Nat) : Nat → JList → Nat → TruncState → JList × TruncState
  | 0, _, _, st => (.nil, st)
  | _ + 1, .nil, _, st => (.nil, st)
  | k + 1, .cons x xs, depth, st =>
      let (y, st1) := formatValue maxAI maxOD x depth st
      let (ys, st2) := formatValueTake maxAI maxOD k xs depth st1
      (.cons y ys, st2)

/-- The `Object.entries` rebuild loop: every key kept, every value formatted
at depth + 1. -/
def formatValueE (maxAI maxOD : Nat) : JEnts → Nat → TruncState → JEnts × TruncState
  | .nil, _, st => (.nil, st)
  | .cons k v kvs, depth, st =>
      let (w, st1) := formatValue maxAI maxOD v depth st
      let (ws, st2) := formatValueE maxAI maxOD kvs depth st1
      (.cons k w ws, st2)

end

/-- Embedding of `formatTruncatedResponse(data, options)`. -/
def formatTruncatedResponse (v : JVal) (options : FormattingOptions) :
    JVal × TruncationMetadata :=
  let maxAI := options.maxArrayItems.getD MAX_ARRAY_ITEMS
  let maxOD := options.maxObjectDepth.getD MAX_OBJECT_DEPTH
  let (fd, st) := formatValue maxAI maxOD v 0 ⟨false, 0, none⟩
  (fd,
   { wasTruncated := st.wasTruncated,
     itemsOmitted := if st.itemsOmitted > 0 then some st.itemsOmitted else none,
     reason := if st.wasTruncated then st.reason else none })

/-- State of the array chunking loop of `chunkResponse`: closed chunks, the
chunk being filled, and its running size.  The loop serializes each item with
compact `JSON.stringify` to obtain its size; the embedding keeps each
item paired with that size while the loop runs and strips the sizes at the
end, which leaves the emitted chunks unchanged. -/
structure ArrChunkState where
  chunks : List (List (JVal × Nat))
  cur : List (JVal × Nat)
  curSize : Nat
  deriving Repr, DecidableEq

/-- Serialize each array item and pair it with its size
(`JSON.stringify(item).length`); the first item that cannot be serialized
throws, aborting the whole chunking call, exactly as in the source loop. -/
def itemSizes : List JVal → Except Unit (List (JVal × Nat))
  | [] => .ok []
  | x :: xs =>
      match jsonStringify x with
      | .error e => .error e
      | .ok s =>
          match itemSizes xs with
          | .error e => .error e
          | .ok rest => .ok ((x, s.length) :: rest)

/-- One iteration of the `for (const item of data)` loop of `chunkResponse`'s
array branch. -/
def arrChunkStep (maxCS : Nat) (s : ArrChunkState) (p : JVal × Nat) : ArrChunkState :=
  if s.curSize + p.2 > maxCS && !s.cur.isEmpty then
    ⟨s.chunks ++ [s.cur], [p], p.2⟩
  else
    ⟨s.chunks, s.cur ++ [p], s.curSize + p.2⟩

/-- The trailing `if (currentChunk.length > 0) chunks.push(currentChunk)`. -/
def arrChunkFinish (s : ArrChunkState) : List (List (JVal × Nat)) :=
  if !s.cur.isEmpty then s.chunks ++ [s.cur] else s.chunks

/-- The whole array chunking loop. -/
def chunkArray (maxCS : Nat) (ps : List (JVal × Nat)) : List (List (JVal × Nat)) :=
  arrChunkFinish (ps.foldl (arrChunkStep maxCS) ⟨[], [], 0⟩)

/-- A chunk produced by the object branch of `chunkResponse`, before being
materialized as a value: either an accumulated group of key/value pairs
(each paired with its entry size), or a single oversized entry that will be
passed through `formatTruncatedResponse` and emitted on its own. -/
inductive ObjChunk where
  | grp : List ((String × JVal) × Nat) → ObjChunk
  | big : String → JVal → ObjChunk
  deriving Repr, DecidableEq

/-- State of the object chunking loop of `chunkResponse`. -/
structure ObjChunkState where
  chunks : List ObjChunk
  cur : List ((String × JVal) × Nat)
  curSize : Nat
  deriving Repr, DecidableEq

/-- Serialize each object entry as the singleton object
`JSON.stringify({ [key]: value })` and pair the entry with that size. -/
def entrySizes : List (String × JVal) → Except Unit (List ((String × JVal) × Nat))
  | [] => .ok []
  | (k, v) :: kvs =>
      match jsonStringify (.jobj (.cons k v .nil)) with
      | .error e => .error e
      | .ok s =>
          match entrySizes kvs with
          | .error e => .error e
          | .ok rest => .ok (((k, v), s.length) :: rest)

/-- One iteration of the `for (const [key, value] of entries)` loop of
`chunkResponse`'s object branch: an entry larger than the budget flushes the
current group (when it is non-empty with positive size) and becomes its own
chunk; otherwise the greedy size check applies. -/
def objChunkStep (maxCS : Nat) (s : ObjChunkState) (p : (String × JVal) × Nat) :
    ObjChunkState :=
  if p.2 > maxCS then
    let flushed :=
      if s.curSize > 0 && !s.cur.isEmpty then s.chunks ++ [ObjChunk.grp s.cur]
      else s.chunks
    ⟨flushed ++ [ObjChunk.big p.1.1 p.1.2], [], 0⟩
  else if s.curSize + p.2 > maxCS && !s.cur.isEmpty then
    ⟨s.chunks ++ [ObjChunk.grp s.cur], [p], p.2⟩
  else
    ⟨s.chunks, s.cur ++ [p], s.curSize + p.2⟩

/-- The trailing flush of the object chunking loop. -/
def objChunkFinish (s : ObjChunkState) : List ObjChunk :=
  if !s.cur.isEmpty then s.chunks ++ [ObjChunk.grp s.cur] else s.chunks

/-- The whole object chunking loop. -/
def chunkObject (maxCS : Nat) (ps : List ((String × JVal) × Nat)) : List ObjChunk :=
  objChunkFinish (ps.foldl (objChunkStep maxCS) ⟨[], [], 0⟩)

/-- Materialize an object chunk as the value `chunkResponse` stores: a group
becomes a sub-object of its pairs, an oversized entry becomes the
`formattedData` of `formatTruncatedResponse({ [key]: value }, options)`. -/
def realizeObjChunk (options : FormattingOptions) : ObjChunk → JVal
  | .grp ps => .jobj (JEnts.ofList (ps.map Prod.fst))
  | .big k v => (formatTruncatedResponse (.jobj (.cons k v .nil)) options).1

/-- Payload of the continuation token generated for a chunked array:
`JSON.stringify({ type: 'array', total: data.length })`.  The source
additionally base64-encodes this text via `Buffer.from(...).toString`; that
encoding is an injective transport step and is not modeled. -/
def arrayToken (total : Nat) : String :=
  "\x7b\"type\":\"array\",\"total\":" ++ toString total ++ "\x7d"

/-- Payload of the continuation token generated for a chunked object:
`JSON.stringify({ type: 'object', keys: Object.keys(data) })`, modulo the
same unmodeled base64 step. -/
def objectToken (keys : List String) : String :=
  "\x7b\"type\":\"object\",\"keys\":[" ++ joinSep "," (keys.map quoteStr) ++ "]\x7d"

/-- Result record of `chunkResponse`. -/
structure ChunkResult where
  chunks : List JVal
  continuationToken : Option String
  deriving Repr, DecidableEq

/-- Embedding of `chunkResponse(data, options)`. -/
def chunkResponse (data : JVal) (options : FormattingOptions) : Except Unit ChunkResult :=
  let maxCS := options.maxChunkSize.getD MAX_CHUNK_SIZE
  match data with
  | .jarr xs =>
      match itemSizes xs.toList with
      | .error e => .error e
      | .ok ps =>
          let chunks := (chunkArray maxCS ps).map
            (fun grp => JVal.jarr (JList.ofList (grp.map Prod.fst)))
          .ok ⟨chunks, if chunks.length > 1 then some (arrayToken xs.len) else none⟩
  | .jobj kvs =>
      match entrySizes kvs.toList with
      | .error e => .error e
      | .ok ps =>
          let chunks := (chunkObject maxCS ps).map (realizeObjChunk options)
          .ok ⟨chunks,
               if chunks.length > 1 then
                 some (objectToken (kvs.toList.map Prod.fst))
               else none⟩
  | v => .ok ⟨[v], none⟩

/-- The fragment text production shared by both branches of
`formatChunkedResponse`: `JSON.stringify(formattedData, null, 2)` when
`typeof formattedData === 'object'` (null, arrays, objects), otherwise
`String(formattedData)` (which never throws, even on a BigInt). -/
def stringifyData : JVal → Except Unit String
  | .jnull => jsonStringifyPretty .jnull 0
  | .jarr xs => jsonStringifyPretty (.jarr xs) 0
  | .jobj kvs => jsonStringifyPretty (.jobj kvs) 0
  | .jbool b => .ok (cond b "true" "false")
  | .jnum n => .ok (toString n)
  | .jstr s => .ok s
  | .jbig n => .ok (toString n)

/-- Embedding of the `ChunkedToolCallResult` protocol fragment: the single
text content item is modeled by its text; optional JS fields are `Option`s
left `none` when the source leaves them undefined. -/
structure ChunkedToolCallResult where
  text : String
  isError : Bool := false
  isChunked : Option Bool := none
  chunkIndex : Option Nat := none
  totalChunks : Option Nat := none
  continuationToken : Option String := none
  metadata : Option TruncationMetadata := none
  deriving Repr, DecidableEq

/-- The `chunks.map((chunk, index) => ...)` of `formatChunkedResponse`: each
chunk is truncated on its own, serialized, and wrapped with positional
metadata; the continuation token is attached only at the last index. -/
def buildChunkFragments (options : FormattingOptions) (total : Nat)
    (tok : Option String) : Nat → List JVal → Except Unit (List ChunkedToolCallResult)
  | _, [] => .ok []
  | index, c :: cs =>
      let (fd, md) := formatTruncatedResponse c options
      match stringifyData fd with
      | .error e => .error e
      | .ok text =>
          match buildChunkFragments options total tok (index + 1) cs with
          | .error e => .error e
          | .ok rest =>
              .ok ({ text := text,
                     isChunked := some true,
                     chunkIndex := some index,
                     totalChunks := some total,
                     continuationToken := if index = total - 1 then tok else none,
                     metadata := if md.wasTruncated then some md else none } :: rest)

/-- Embedding of `formatChunkedResponse(data, options)`. -/
def formatChunkedResponse (data : JVal) (options : FormattingOptions) :
    Except Unit (List ChunkedToolCallResult) :=
  if needsChunking data options then
    match chunkResponse data options with
    | .error e => .error e
    | .ok res => buildChunkFragments options res.chunks.length res.continuationToken 0 res.chunks
  else
    let (fd, md) := formatTruncatedResponse data options
    match stringifyData fd with
    | .error e => .error e
    | .ok text =>
        .ok [{ text := text, metadata := if md.wasTruncated then some md else none }]

/-- Embedding of `createSuccessResponse(data, message, options)`. -/
def createSuccessResponse (data : JVal) (message : Option String)
    (options : FormattingOptions) : Except Unit (List ChunkedToolCallResult) :=
  match formatChunkedResponse data options with
  | .error e => .error e
  | .ok results =>
      match message, results with
      | some msg, first :: rest =>
          .ok ({ first with text := msg ++ "\n\n" ++ first.text } :: rest)
      | _, _ => .ok results

/-- Embedding of `createErrorResponse(error)` applied to a message string. -/
def createErrorResponse (errorMessage : String) : ChunkedToolCallResult :=
  { text := errorMessage, isError := true }

/-!
Embedding of src/utils/pagination.ts.
-/

/-- Embedding of `PaginationParams`. -/
structure PaginationParams where
  offset : Option Int := none
  limit : Option Int := none
  deriving Repr, DecidableEq

/-- Embedding of `PaginationMetadata`. -/
structure PaginationMetadata where
  offset : Int
  limit : Int
  total : Int
  hasMore : Bool
  nextOffset : Option Int
  prevOffset : Option Int
  deriving Repr, DecidableEq

/-- Embedding of `PaginatedResult`. -/
structure PaginatedResult (α : Type) where
  data : List α
  pagination : PaginationMetadata
  deriving Repr, DecidableEq

/-- Embedding of `paginateResults(items, params)`; `items.slice(a, b)` with
`0 ≤ a ≤ b` is `(items.drop a).take (b - a)`, and here
`b - a = validLimit`. -/
def paginateResults {α : Type} (items : List α) (params : PaginationParams) :
    PaginatedResult α :=
  let offset : Int := params.offset.getD 0
  let limit : Int := params.limit.getD 10
  let total : Int := (items.length : Int)
  let validOffset : Int := max 0 (min offset total)
  let validLimit : Int := max 1 limit
  let paginatedItems := (items.drop validOffset.toNat).take validLimit.toNat
  { data := paginatedItems,
    pagination :=
      { offset := validOffset,
        limit := validLimit,
        total := total,
        hasMore := validOffset + validLimit < total,
        nextOffset :=
          if validOffset + validLimit < total then some (validOffset + validLimit)
          else none,
        prevOffset :=
          if validOffset > 0 then some (max 0 (validOffset - validLimit)) else none } }

/-!
Reference definitions taken from the specification's words, for the
refinement claims.
-/

mutual

/-- Detects a BigInt anywhere in a value (the one constructor outside the
spec's value universe and the one that makes `JSON.stringify` throw). -/
def hasBigV : JVal → Bool
  | .jbig _ => true
  | .jarr xs => hasBigL xs
  | .jobj kvs => hasBigE kvs
  | _ => false

def hasBigL : JList → Bool
  | .nil => false
  | .cons x xs => hasBigV x || hasBigL xs

def hasBigE : JEnts → Bool
  | .nil => false
  | .cons _ v kvs => hasBigV v || hasBigE kvs

end

mutual

/-- Reference cost recursion of spec §4.1, written from the spec's words:
null → 4, boolean → 4, number → 8, string → 2·codeUnitLength, composite →
8 plus the sum of the children costs, and each mapping key additionally
2·keyLength.  A BigInt is outside the spec's universe; it is assigned 0 and
the comparison theorem is restricted to BigInt-free values. -/
def specCost : JVal → Nat
  | .jnull => 4
  | .jbool _ => 4
  | .jnum _ => 8
  | .jstr s => 2 * s.length
  | .jbig _ => 0
  | .jarr xs => 8 + specCostL xs
  | .jobj kvs => 8 + specCostE kvs

def specCostL : JList → Nat
  | .nil => 0
  | .cons x xs => specCost x + specCostL xs

def specCostE : JEnts → Nat
  | .nil => 0
  | .cons k v kvs => 2 * k.length + specCost v + specCostE kvs

end

/-- Fragment wrapping of the spec's truncate-before-chunk pipeline: each
chunk is only serialized (no further truncation), and the single shared
truncation record of the one pass is attached to every fragment when that
pass truncated. -/
def specWrapFragments (md : TruncationMetadata) (total : Nat) (tok : Option String) :
    Nat → List JVal → Except Unit (List ChunkedToolCallResult)
  | _, [] => .ok []
  | index, c :: cs =>
      match stringifyData c with
      | .error e => .error e
      | .ok text =>
          match specWrapFragments md total tok (index + 1) cs with
          | .error e => .error e
          | .ok rest =>
              .ok ({ text := text,
                     isChunked := some true,
                     chunkIndex := some index,
                     totalChunks := some total,
                     continuationToken := if index = total - 1 then tok else none,
                     metadata := if md.wasTruncated then some md else none } :: rest)

/-- Reference pipeline for the chunking path, written from the spec's words
(§4.4 step 3): truncate once, chunk the truncated value, and attach the one
shared truncation record of that single pass to every resulting fragment. -/
def specTruncateThenChunk (data : JVal) (options : FormattingOptions) :
    Except Unit (List ChunkedToolCallResult) :=
  let (tv, md) := formatTruncatedResponse data options
  match chunkResponse tv options with
  | .error e => .error e
  | .ok res => specWrapFragments md res.chunks.length res.continuationToken 0 res.chunks

/-!
Heap embedding of `approximateObjectSize`'s inner `sizeOf`, with the
identity-keyed visited set of the source.  JS object identities are heap
addresses: a value graph is a finite association list from addresses to
nodes (arrays of references, or objects mapping keys to references), and a
reference is a primitive or an address.  Reference cycles are representable
(a node may point back to any address), so this model carries the
termination content of the visited-set mechanism.  The recursion is fueled;
the stability half of theorem `c7` shows every fuel beyond an explicit
bound computes the same result, so the function is well-defined on every
heap, including cyclic ones.
-/

/-- A JS reference: a primitive value or the address of a composite. -/
inductive HRef where
  | hnull : HRef
  | hbool : Bool → HRef
  | hnum : Int → HRef
  | hstr : String → HRef
  | hbig : Int → HRef
  | hptr : Nat → HRef
  deriving Repr, DecidableEq

/-- A composite heap node. -/
inductive HNode where
  | harr : List HRef → HNode
  | hobj : List (String × HRef) → HNode
  deriving Repr, DecidableEq

/-- A value graph: finite map from addresses to nodes. -/
abbrev Heap : Type := List (Nat × HNode)

/-- Address lookup. -/
def lookupNode (h : Heap) (i : Nat) : Option HNode :=
  (List.find? (fun p => p.1 == i) h).map Prod.snd

/-- Number of immediate children of a node. -/
def nodeLen : HNode → Nat
  | .harr rs => rs.length
  | .hobj kvs => kvs.length

mutual

/-- Embedding of the inner `sizeOf(value)` on the heap model, with the
visited set (`visited.has` / `visited.add`) explicit.  The fuel argument
only makes the recursion structural; `c7` proves the result is independent
of it beyond an explicit bound. -/
def sizeOfRef (h : Heap) : Nat → List Nat → HRef → Nat × List Nat
  | _, visited, .hnull => (4, visited)
  | _, visited, .hbool _ => (4, visited)
  | _, visited, .hnum _ => (8, visited)
  | _, visited, .hstr s => (2 * s.length, visited)
  | _, visited, .hbig _ => (0, visited)
  | fuel, visited, .hptr i =>
      if i ∈ visited then (0, visited)
      else
        match lookupNode h i with
        | none => (0, visited)
        | some nd =>
            match fuel with
            | 0 => (0, visited)
            | fuel' + 1 => sizeOfNode h fuel' (i :: visited) nd

def sizeOfNode (h : Heap) : Nat → List Nat → HNode → Nat × List Nat
  | 0, visited, _ => (0, visited)
  | fuel + 1, visited, .harr rs =>
      let (n, v1) := sizeOfRefs h fuel visited rs
      (8 + n, v1)
  | fuel + 1, visited, .hobj kvs =>
      let (n, v1) := sizeOfProps h fuel visited kvs
      (8 + n, v1)

def sizeOfRefs (h : Heap) : Nat → List Nat → List HRef → Nat × List Nat
  | _, visited, [] => (0, visited)
  | 0, visited, _ :: _ => (0, visited)
  | fuel + 1, visited, r :: rs =>
      let (n, v1) := sizeOfRef h fuel visited r
      let (m, v2) := sizeOfRefs h fuel v1 rs
      (n + m, v2)

def sizeOfProps (h : Heap) : Nat → List Nat → List (String × HRef) → Nat × List Nat
  | _, visited, [] => (0, visited)
  | 0, visited, _ :: _ => (0, visited)
  | fuel + 1, visited, (k, r) :: kvs =>
      let (n, v1) := sizeOfRef h fuel visited r
      let (m, v2) := sizeOfProps h fuel v1 kvs
      (2 * k.length + n + m, v2)

end

/-- Weight of one heap node: 2 plus its child count. -/
def pairWeight (p : Nat × HNode) : Nat := 2 + nodeLen p.2

/-- Weight of a heap: each node contributes 2 plus its child count.  One
unit of fuel is consumed per expanded node, per visited child slot, and per
node header, so any fuel beyond the total weight of the not-yet-visited
part of the heap is never exhausted. -/
def remWeight (h : Heap) (visited : List Nat) : Nat :=
  ((h.filter (fun p => !(visited.contains p.1))).map pairWeight).sum

/-- Embedding of `approximateObjectSize(obj)` on the heap model: primitives
are costed by the top-level switch, a composite goes through `sizeOf` with a
fresh visited set; the starting fuel exceeds the whole heap's weight. -/
def approximateObjectSizeHeap (h : Heap) : HRef → Nat
  | .hnull => 4
  | .hbool _ => 4
  | .hnum _ => 8
  | .hstr s => 2 * s.length
  | .hbig _ => 0
  | .hptr i => (sizeOfRef h (remWeight h [] + 1) [] (.hptr i)).1

mutual

/-- Flatten a tree value into a heap fragment: composites get consecutive
fresh addresses starting at the given counter; returns the fragment, the
reference to the root, and the next free address. -/
def encodeVal : JVal → Nat → Heap × HRef × Nat
  | .jnull, n => ([], .hnull, n)
  | .jbool b, n => ([], .hbool b, n)
  | .jnum x, n => ([], .hnum x, n)
  | .jstr s, n => ([], .hstr s, n)
  | .jbig x, n => ([], .hbig x, n)
  | .jarr xs, n =>
      let (hs, refs, m) := encodeList xs (n + 1)
      ((n, .harr refs) :: hs, .hptr n, m)
  | .jobj kvs, n =>
      let (hs, props, m) := encodeEnts kvs (n + 1)
      ((n, .hobj props) :: hs, .hptr n, m)

def encodeList : JList → Nat → Heap × List HRef × Nat
  | .nil, n => ([], [], n)
  | .cons x xs, n =>
      let (h1, r, m1) := encodeVal x n
      let (h2, rs, m2) := encodeList xs m1
      (h1 ++ h2, r :: rs, m2)

def encodeEnts : JEnts → Nat → Heap × List (String × HRef) × Nat
  | .nil, n => ([], [], n)
  | .cons k v kvs, n =>
      let (h1, r, m1) := encodeVal v n
      let (h2, props, m2) := encodeEnts kvs m1
      (h1 ++ h2, (k, r) :: props, m2)

end

/-!
Helper lemmas.
-/

/-- Whether an embedded JS computation threw. -/
def isErr {α : Type} : Except Unit α → Bool
  | .error _ => true
  | .ok _ => false

mutual

theorem filterObjectFields_id : ∀ v : JVal, filterObjectFields v = v
  | .jnull => rfl
  | .jbool _ => rfl
  | .jnum _ => rfl
  | .jstr _ => rfl
  | .jbig _ => rfl
  | .jarr xs => by simp [filterObjectFields, filterObjectFieldsL_id xs]
  | .jobj kvs => by simp [filterObjectFields, filterObjectFieldsE_id kvs]

theorem filterObjectFieldsL_id : ∀ xs : JList, filterObjectFieldsL xs = xs
  | .nil => rfl
  | .cons x xs => by
      simp [filterObjectFieldsL, filterObjectFields_id x, filterObjectFieldsL_id xs]

theorem filterObjectFieldsE_id : ∀ kvs : JEnts, filterObjectFieldsE kvs = kvs
  | .nil => rfl
  | .cons k v kvs => by
      simp [filterObjectFieldsE, filterObjectFields_id v, filterObjectFieldsE_id kvs]

end

mutual

theorem isErr_jsonStringify : ∀ v : JVal, isErr (jsonStringify v) = hasBigV v
  | .jnull => rfl
  | .jbool _ => rfl
  | .jnum _ => rfl
  | .jstr _ => rfl
  | .jbig _ => rfl
  | .jarr xs => by
      have ih := isErr_jsonStringifyL xs
      rcases h : jsonStringifyL xs with e | parts <;>
        simp_all [jsonStringify, hasBigV, isErr]
  | .jobj kvs => by
      have ih := isErr_jsonStringifyE kvs
      rcases h : jsonStringifyE kvs with e | parts <;>
        simp_all [jsonStringify, hasBigV, isErr]

theorem isErr_jsonStringifyL : ∀ xs : JList, isErr (jsonStringifyL xs) = hasBigL xs
  | .nil => rfl
  | .cons x xs => by
      have ih1 := isErr_jsonStringify x
      have ih2 := isErr_jsonStringifyL xs
      rcases h1 : jsonStringify x with e | s <;>
        rcases h2 : jsonStringifyL xs with e2 | rest <;>
          simp_all [jsonStringifyL, hasBigL, isErr]

theorem isErr_jsonStringifyE : ∀ kvs : JEnts, isErr (jsonStringifyE kvs) = hasBigE kvs
  | .nil => rfl
  | .cons k v kvs => by
      have ih1 := isErr_jsonStringify v
      have ih2 := isErr_jsonStringifyE kvs
      rcases h1 : jsonStringify v with e | s <;>
        rcases h2 : jsonStringifyE kvs with e2 | rest <;>
          simp_all [jsonStringifyE, hasBigE, isErr]

end

mutual

theorem isErr_jsonStringifyPretty :
    ∀ (v : JVal) (d : Nat), isErr (jsonStringifyPretty v d) = hasBigV v
  | .jnull, _ => rfl
  | .jbool _, _ => rfl
  | .jnum _, _ => rfl
  | .jstr _, _ => rfl
  | .jbig _, _ => rfl
  | .jarr .nil, _ => rfl
  | .jarr (.cons x xs), d => by
      have ih := isErr_jsonStringifyPrettyL (.cons x xs) (d + 1)
      rcases h : jsonStringifyPrettyL (.cons x xs) (d + 1) with e | parts <;>
        simp_all [jsonStringifyPretty, hasBigV, isErr]
  | .jobj .nil, _ => rfl
  | .jobj (.cons k v kvs), d => by
      have ih := isErr_jsonStringifyPrettyE (.cons k v kvs) (d + 1)
      rcases h : jsonStringifyPrettyE (.cons k v kvs) (d + 1) with e | parts <;>
        simp_all [jsonStringifyPretty, hasBigV, isErr]

theorem isErr_jsonStringifyPrettyL :
    ∀ (xs : JList) (d : Nat), isErr (jsonStringifyPrettyL xs d) = hasBigL xs
  | .nil, _ => rfl
  | .cons x xs, d => by
      have ih1 := isErr_jsonStringifyPretty x d
      have ih2 := isErr_jsonStringifyPrettyL xs d
      rcases h1 : jsonStringifyPretty x d with e | s <;>
        rcases h2 : jsonStringifyPrettyL xs d with e2 | rest <;>
          simp_all [jsonStringifyPrettyL, hasBigL, isErr]

theorem isErr_jsonStringifyPrettyE :
    ∀ (kvs : JEnts) (d : Nat), isErr (jsonStringifyPrettyE kvs d) = hasBigE kvs
  | .nil, _ => rfl
  | .cons k v kvs, d => by
      have ih1 := isErr_jsonStringifyPretty v d
      have ih2 := isErr_jsonStringifyPrettyE kvs d
      rcases h1 : jsonStringifyPretty v d with e | s <;>
        rcases h2 : jsonStringifyPrettyE kvs d with e2 | rest <;>
          simp_all [jsonStringifyPrettyE, hasBigE, isErr]

end

theorem isErr_serializeToJson (v : JVal) : isErr (serializeToJson v) = hasBigV v := by
  unfold serializeToJson
  rw [filterObjectFields_id, isErr_jsonStringifyPretty]

mutual

theorem formatValue_mono : ∀ (maxAI maxOD : Nat) (v : JVal) (d : Nat) (st : TruncState),
    st.wasTruncated = true → (formatValue maxAI maxOD v d st).2.wasTruncated = true
  | maxAI, maxOD, v, d, st, h => by
      rw [formatValue.eq_def]
      split
      split
      · rfl
      · match v with
        | .jnull => exact h
        | .jbool _ => exact h
        | .jnum _ => exact h
        | .jstr _ => exact h
        | .jbig _ => exact h
        | .jarr xs =>
            dsimp only
            split
            · rcases hE : formatValueTake maxAI maxOD maxAI xs (d + 1)
                  { wasTruncated := true, itemsOmitted := st.itemsOmitted + (xs.len - maxAI),
                    reason := orReason st.reason arrayMsg } with ⟨ys, st2⟩
              have h2 := formatValueTake_mono maxAI maxOD maxAI xs (d + 1)
                  { wasTruncated := true, itemsOmitted := st.itemsOmitted + (xs.len - maxAI),
                    reason := orReason st.reason arrayMsg } rfl
              rw [hE] at h2
              have h2' : st2.wasTruncated = true := h2
              simp [hE, h2']
            · rcases hE : formatValueL maxAI maxOD xs (d + 1) st with ⟨ys, st1⟩
              have h2 := formatValueL_mono maxAI maxOD xs (d + 1) st h
              rw [hE] at h2
              have h2' : st1.wasTruncated = true := h2
              simp [hE, h2']
        | .jobj kvs =>
            dsimp only
            rcases hE : formatValueE maxAI maxOD kvs (d + 1) st with ⟨ws, st1⟩
            have h2 := formatValueE_mono maxAI maxOD kvs (d + 1) st h
            rw [hE] at h2
            have h2' : st1.wasTruncated = true := h2
            simp [hE, h2']

theorem formatValueL_mono : ∀ (maxAI maxOD : Nat) (xs : JList) (d : Nat) (st : TruncState),
    st.wasTruncated = true → (formatValueL maxAI maxOD xs d st).2.wasTruncated = true
  | maxAI, maxOD, .nil, d, st, h => by rw [formatValueL]; exact h
  | maxAI, maxOD, .cons x xs, d, st, h => by
      rw [formatValueL]
      rcases h1 : formatValue maxAI maxOD x d st with ⟨y, st1⟩
      have hst1 := formatValue_mono maxAI maxOD x d st h
      rw [h1] at hst1
      have hst1' : st1.wasTruncated = true := hst1
      rcases h2 : formatValueL maxAI maxOD xs d st1 with ⟨ys, st2⟩
      have hst2 := formatValueL_mono maxAI maxOD xs d st1 hst1'
      rw [h2] at hst2
      have hst2' : st2.wasTruncated = true := hst2
      simp [h1, h2, hst2']

theorem formatValueTake_mono : ∀ (maxAI maxOD k : Nat) (xs : JList) (d : Nat) (st : TruncState),
    st.wasTruncated = true → (formatValueTake maxAI maxOD k xs d st).2.wasTruncated = true
  | maxAI, maxOD, 0, xs, d, st, h => by rw [formatValueTake.eq_def]; exact h
  | maxAI, maxOD, k + 1, .nil, d, st, h => by rw [formatValueTake.eq_def]; exact h
  | maxAI, maxOD, k + 1, .cons x xs, d, st, h => by
      rw [formatValueTake]
      rcases h1 : formatValue maxAI maxOD x d st with ⟨y, st1⟩
      have hst1 := formatValue_mono maxAI maxOD x d st h
      rw [h1] at hst1
      have hst1' : st1.wasTruncated = true := hst1
      rcases h2 : formatValueTake maxAI maxOD k xs d st1 with ⟨ys, st2⟩
      have hst2 := formatValueTake_mono maxAI maxOD k xs d st1 hst1'
      rw [h2] at hst2
      have hst2' : st2.wasTruncated = true := hst2
      simp [h1, h2, hst2']

theorem formatValueE_mono : ∀ (maxAI maxOD : Nat) (kvs : JEnts) (d : Nat) (st : TruncState),
    st.wasTruncated = true → (formatValueE maxAI maxOD kvs d st).2.wasTruncated = true
  | maxAI, maxOD, .nil, d, st, h => by rw [formatValueE]; exact h
  | maxAI, maxOD, .cons k v kvs, d, st, h => by
      rw [formatValueE]
      rcases h1 : formatValue maxAI maxOD v d st with ⟨w, st1⟩
      have hst1 := formatValue_mono maxAI maxOD v d st h
      rw [h1] at hst1
      have hst1' : st1.wasTruncated = true := hst1
      rcases h2 : formatValueE maxAI maxOD kvs d st1 with ⟨ws, st2⟩
      have hst2 := formatValueE_mono maxAI maxOD kvs d st1 hst1'
      rw [h2] at hst2
      have hst2' : st2.wasTruncated = true := hst2
      simp [h1, h2, hst2']

end

mutual

theorem formatValue_id : ∀ (maxAI maxOD : Nat) (v : JVal) (d : Nat) (st : TruncState),
    (formatValue maxAI maxOD v d st).2.wasTruncated = false →
    (formatValue maxAI maxOD v d st).1 = v
  | maxAI, maxOD, .jnull, d, st => by
      intro h
      by_cases hd : d > maxOD
      · simp [formatValue.eq_def, hd] at h
      · simp [formatValue.eq_def, hd]
  | maxAI, maxOD, .jbool b, d, st => by
      intro h
      by_cases hd : d > maxOD
      · simp [formatValue.eq_def, hd] at h
      · simp [formatValue.eq_def, hd]
  | maxAI, maxOD, .jnum n, d, st => by
      intro h
      by_cases hd : d > maxOD
      · simp [formatValue.eq_def, hd] at h
      · simp [formatValue.eq_def, hd]
  | maxAI, maxOD, .jstr s, d, st => by
      intro h
      by_cases hd : d > maxOD
      · simp [formatValue.eq_def, hd] at h
      · simp [formatValue.eq_def, hd]
  | maxAI, maxOD, .jbig n, d, st => by
      intro h
      by_cases hd : d > maxOD
      · simp [formatValue.eq_def, hd] at h
      · simp [formatValue.eq_def, hd]
  | maxAI, maxOD, .jarr xs, d, st => by
      intro h
      by_cases hd : d > maxOD
      · simp [formatValue.eq_def, hd] at h
      · by_cases hn : xs.len > maxAI
        · rcases hE : formatValueTake maxAI maxOD maxAI xs (d + 1)
              { wasTruncated := true, itemsOmitted := st.itemsOmitted + (xs.len - maxAI),
                reason := orReason st.reason arrayMsg } with ⟨ys, st2⟩
          have hm := formatValueTake_mono maxAI maxOD maxAI xs (d + 1)
              { wasTruncated := true, itemsOmitted := st.itemsOmitted + (xs.len - maxAI),
                reason := orReason st.reason arrayMsg } rfl
          rw [hE] at hm
          have hm' : st2.wasTruncated = true := hm
          simp [formatValue.eq_def, hd, hn, hE, hm'] at h
        · rcases hE : formatValueL maxAI maxOD xs (d + 1) st with ⟨ys, st1⟩
          simp [formatValue.eq_def, hd, hn, hE] at h ⊢
          have := formatValueL_id maxAI maxOD xs (d + 1) st (by rw [hE]; exact h)
          rw [hE] at this
          exact this
  | maxAI, maxOD, .jobj kvs, d, st => by
      intro h
      by_cases hd : d > maxOD
      · simp [formatValue.eq_def, hd] at h
      · rcases hE : formatValueE maxAI maxOD kvs (d + 1) st with ⟨ws, st1⟩
        simp [formatValue.eq_def, hd, hE] at h ⊢
        have := formatValueE_id maxAI maxOD kvs (d + 1) st (by rw [hE]; exact h)
        rw [hE] at this
        exact this

theorem formatValueL_id : ∀ (maxAI maxOD : Nat) (xs : JList) (d : Nat) (st : TruncState),
    (formatValueL maxAI maxOD xs d st).2.wasTruncated = false →
    (formatValueL maxAI maxOD xs d st).1 = xs
  | maxAI, maxOD, .nil, d, st => by intro h; rw [formatValueL]
  | maxAI, maxOD, .cons x xs, d, st => by
      intro h
      rw [formatValueL] at h ⊢
      rcases h1 : formatValue maxAI maxOD x d st with ⟨y, st1⟩
      rcases h2 : formatValueL maxAI maxOD xs d st1 with ⟨ys, st2⟩
      simp [h1, h2] at h ⊢
      have hst1 : st1.wasTruncated = false := by
        by_contra hc
        have hc' : st1.wasTruncated = true := by
          cases hb : st1.wasTruncated
          · exact absurd hb hc
          · rfl
        have := formatValueL_mono maxAI maxOD xs d st1 hc'
        rw [h2] at this
        have : st2.wasTruncated = true := this
        simp [this] at h
      constructor
      · have := formatValue_id maxAI maxOD x d st (by rw [h1]; exact hst1)
        rw [h1] at this
        exact this
      · have := formatValueL_id maxAI maxOD xs d st1 (by rw [h2]; exact h)
        rw [h2] at this
        exact this

theorem formatValueE_id : ∀ (maxAI maxOD : Nat) (kvs : JEnts) (d : Nat) (st : TruncState),
    (formatValueE maxAI maxOD kvs d st).2.wasTruncated = false →
    (formatValueE maxAI maxOD kvs d st).1 = kvs
  | maxAI, maxOD, .nil, d, st => by intro h; rw [formatValueE]
  | maxAI, maxOD, .cons k v kvs, d, st => by
      intro h
      rw [formatValueE] at h ⊢
      rcases h1 : formatValue maxAI maxOD v d st with ⟨w, st1⟩
      rcases h2 : formatValueE maxAI maxOD kvs d st1 with ⟨ws, st2⟩
      simp [h1, h2] at h ⊢
      have hst1 : st1.wasTruncated = false := by
        by_contra hc
        have hc' : st1.wasTruncated = true := by
          cases hb : st1.wasTruncated
          · exact absurd hb hc
          · rfl
        have := formatValueE_mono maxAI maxOD kvs d st1 hc'
        rw [h2] at this
        have : st2.wasTruncated = true := this
        simp [this] at h
      constructor
      · have := formatValue_id maxAI maxOD v d st (by rw [h1]; exact hst1)
        rw [h1] at this
        exact this
      · have := formatValueE_id maxAI maxOD kvs d st1 (by rw [h2]; exact h)
        rw [h2] at this
        exact this

end

/-- C2: the claim fails on the code.  Truncating the 3-element array
[0, 0, 0] with maxArrayItems = 1 yields [0, "... 2 more items"] with
wasTruncated = true; truncating that result again with the same limits is
not the identity (the appended marker makes the array length
maxArrayItems + 1, which is again over the limit): the second pass returns
the different value [0, "... 1 more items"] and reports wasTruncated = true,
not false. -/
theorem c2_counterexample :
    (formatTruncatedResponse
        (formatTruncatedResponse
            (.jarr (.cons (.jnum 0) (.cons (.jnum 0) (.cons (.jnum 0) .nil))))
            { maxArrayItems := some 1 }).1
        { maxArrayItems := some 1 }).2.wasTruncated = true ∧
    (formatTruncatedResponse
        (formatTruncatedResponse
            (.jarr (.cons (.jnum 0) (.cons (.jnum 0) (.cons (.jnum 0) .nil))))
            { maxArrayItems := some 1 }).1
        { maxArrayItems := some 1 }).1 ≠
      (formatTruncatedResponse
          (.jarr (.cons (.jnum 0) (.cons (.jnum 0) (.cons (.jnum 0) .nil))))
          { maxArrayItems := some 1 }).1 := by
  constructor
  · decide
  · decide

/-- C2 (amended): truncation is idempotent only on values it does not
truncate: whenever a pass reports wasTruncated = false, it returned its
input unchanged, so running it again gives the same value and again
wasTruncated = false.  On values the first pass does truncate, a second
pass can both change the value again and report wasTruncated = true
(see the counterexample). -/
theorem c2 (v : JVal) (options : FormattingOptions)
    (h : (formatTruncatedResponse v options).2.wasTruncated = false) :
    (formatTruncatedResponse v options).1 = v ∧
    formatTruncatedResponse ((formatTruncatedResponse v options).1) options =
      formatTruncatedResponse v options := by
  have hfd : (formatTruncatedResponse v options).1 = v := by
    unfold formatTruncatedResponse at h ⊢
    rcases hE : formatValue (options.maxArrayItems.getD MAX_ARRAY_ITEMS)
        (options.maxObjectDepth.getD MAX_OBJECT_DEPTH) v 0 ⟨false, 0, none⟩ with ⟨fd, st⟩
    simp [hE] at h ⊢
    have := formatValue_id (options.maxArrayItems.getD MAX_ARRAY_ITEMS)
        (options.maxObjectDepth.getD MAX_OBJECT_DEPTH) v 0 ⟨false, 0, none⟩
        (by rw [hE]; exact h)
    rw [hE] at this
    exact this
  exact ⟨hfd, by rw [hfd]⟩

/-- Witness for c2 at a value below all limits. -/
theorem c2_witness :
    (formatTruncatedResponse (.jarr (.cons (.jnum 7) .nil)) {}).2.wasTruncated = false ∧
    ((formatTruncatedResponse (.jarr (.cons (.jnum 7) .nil)) {}).1 =
        .jarr (.cons (.jnum 7) .nil) ∧
      formatTruncatedResponse
          ((formatTruncatedResponse (.jarr (.cons (.jnum 7) .nil)) {}).1) {} =
        formatTruncatedResponse (.jarr (.cons (.jnum 7) .nil)) {}) :=
  ⟨by decide, c2 (.jarr (.cons (.jnum 7) .nil)) {} (by decide)⟩

/-- C8: whenever the confirming serialization of the admission check throws
(the size estimate, a total function in this embedding — see c7 — never
does), needsChunking catches the exception and returns true; it is
Bool-valued, so no exception crosses its boundary. -/
theorem needsChunking_of_serializeErr (v : JVal) (options : FormattingOptions)
    (h : isErr (serializeToJson v) = true) :
    needsChunking v options = true := by
  rcases hs : serializeToJson v with e | s
  · simp [needsChunking, hs]
  · rw [hs] at h
    simp [isErr] at h

theorem c8 (v : JVal) (options : FormattingOptions)
    (h : isErr (serializeToJson v) = true) :
    needsChunking v options = true :=
  needsChunking_of_serializeErr v options h

/-- Witness for c8: an array holding a BigInt cannot be serialized, and the
admission check reports it as needing chunking. -/
theorem c8_witness :
    isErr (serializeToJson (.jarr (.cons (.jbig 1) .nil))) = true ∧
    needsChunking (.jarr (.cons (.jbig 1) .nil)) {} = true :=
  ⟨by decide, c8 (.jarr (.cons (.jbig 1) .nil)) {} (by decide)⟩

/-- C5: the paginator clamps offset into [0, total] (default 0) and limit to
at least 1 (default 10); the returned window is the slice at the clamped
offset of clamped-limit length, so its length is
min(limit, max(0, total − offset)) and it is empty when the requested
offset exceeds total; hasMore, nextOffset and prevOffset are derived exactly
as the claim states. -/
theorem c5 (α : Type) (items : List α) (params : PaginationParams) :
    (paginateResults items params).pagination.offset
        = max 0 (min (params.offset.getD 0) (items.length : Int)) ∧
    (paginateResults items params).pagination.limit
        = max 1 (params.limit.getD 10) ∧
    (paginateResults items params).pagination.total = (items.length : Int) ∧
    (paginateResults items params).data
        = (items.drop (max 0 (min (params.offset.getD 0) (items.length : Int))).toNat).take
            (max 1 (params.limit.getD 10)).toNat ∧
    ((paginateResults items params).data.length : Int)
        = min (max 1 (params.limit.getD 10))
            (max 0 ((items.length : Int)
              - max 0 (min (params.offset.getD 0) (items.length : Int)))) ∧
    (params.offset.getD 0 > (items.length : Int) →
       (paginateResults items params).pagination.offset = (items.length : Int) ∧
       (paginateResults items params).data = []) ∧
    ((paginateResults items params).pagination.hasMore = true ↔
       max 0 (min (params.offset.getD 0) (items.length : Int))
           + max 1 (params.limit.getD 10) < (items.length : Int)) ∧
    (paginateResults items params).pagination.nextOffset
        = (if (paginateResults items params).pagination.hasMore then
             some (max 0 (min (params.offset.getD 0) (items.length : Int))
               + max 1 (params.limit.getD 10))
           else none) ∧
    (paginateResults items params).pagination.prevOffset
        = (if max 0 (min (params.offset.getD 0) (items.length : Int)) > 0 then
             some (max 0 (max 0 (min (params.offset.getD 0) (items.length : Int))
               - max 1 (params.limit.getD 10)))
           else none) := by
  have hlen : ((items.drop (max 0 (min (params.offset.getD 0)
      (items.length : Int))).toNat).take (max 1 (params.limit.getD 10)).toNat).length
      = min (max 1 (params.limit.getD 10)).toNat
          (items.length - (max 0 (min (params.offset.getD 0) (items.length : Int))).toNat) := by
    rw [List.length_take, List.length_drop]
  refine ⟨rfl, rfl, rfl, rfl, ?_, ?_, ?_, ?_, ?_⟩
  · show (((items.drop _).take _).length : Int) = _
    rw [hlen]
    omega
  · intro hgt
    constructor
    · show max 0 (min (params.offset.getD 0) (items.length : Int)) = (items.length : Int)
      omega
    · show (items.drop _).take _ = []
      apply List.eq_nil_of_length_eq_zero
      rw [hlen]
      omega
  · simp [paginateResults, decide_eq_true_iff]
  · by_cases hc : max 0 (min (params.offset.getD 0) (items.length : Int))
        + max 1 (params.limit.getD 10) < (items.length : Int)
    · simp [paginateResults, hc]
    · simp [paginateResults, hc]
  · by_cases hc : max 0 (min (params.offset.getD 0) (items.length : Int)) > 0
    · simp [paginateResults, hc]
    · simp [paginateResults, hc]

/-- Witness for c5: offset 5 on a 3-element list clamps to 3 and returns an
empty window, by the over-total clause of c5. -/
theorem c5_witness :
    (paginateResults [(0 : Int), 1, 2]
        { offset := some 5, limit := some 2 }).pagination.offset = 3 ∧
    (paginateResults [(0 : Int), 1, 2] { offset := some 5, limit := some 2 }).data = [] :=
  (c5 Int [(0 : Int), 1, 2] { offset := some 5, limit := some 2 }).2.2.2.2.2.1 (by decide)

/-- A chunk respects the budget when it is a singleton or the sizes of its
members sum to at most the budget. -/
def chunkFits (maxCS : Nat) {beta : Type} (grp : List (beta × Nat)) : Prop :=
  grp.length = 1 ∨ (grp.map Prod.snd).sum ≤ maxCS

theorem arrChunk_fold_flatten (maxCS : Nat) :
    ∀ (ps : List (JVal × Nat)) (s : ArrChunkState),
    (arrChunkFinish (ps.foldl (arrChunkStep maxCS) s)).flatten
      = s.chunks.flatten ++ s.cur ++ ps := by
  intro ps
  induction ps with
  | nil =>
      intro s
      rcases s with ⟨chunks, cur, curSize⟩
      by_cases hc : cur = []
      · simp [arrChunkFinish, hc]
      · simp [arrChunkFinish, hc]
  | cons p ps ih =>
      intro s
      rw [List.foldl_cons, ih]
      rcases s with ⟨chunks, cur, curSize⟩
      by_cases hb : maxCS < curSize + p.2 ∧ ¬cur = []
      · simp [arrChunkStep, List.isEmpty_iff, hb]
      · simp [arrChunkStep, List.isEmpty_iff, hb]

theorem arrChunk_fold_fits (maxCS : Nat) :
    ∀ (ps : List (JVal × Nat)) (s : ArrChunkState),
    (∀ g ∈ s.chunks, chunkFits maxCS g) →
    (s.cur = [] ∨ chunkFits maxCS s.cur) →
    s.curSize = (s.cur.map Prod.snd).sum →
    ∀ g ∈ arrChunkFinish (ps.foldl (arrChunkStep maxCS) s), chunkFits maxCS g := by
  intro ps
  induction ps with
  | nil =>
      intro s hchunks hcur hsz g hg
      rcases s with ⟨chunks, cur, curSize⟩
      simp at hchunks hcur hsz
      by_cases hc : cur = []
      · simp [arrChunkFinish, hc] at hg
        exact hchunks g hg
      · simp [arrChunkFinish, List.isEmpty_iff, hc] at hg
        rcases hg with hg | hg
        · exact hchunks g hg
        · subst hg
          rcases hcur with hcur | hcur
          · exact absurd hcur hc
          · exact hcur
  | cons p ps ih =>
      intro s hchunks hcur hsz
      rw [List.foldl_cons]
      rcases s with ⟨chunks, cur, curSize⟩
      simp at hchunks hcur hsz
      by_cases hb : maxCS < curSize + p.2 ∧ ¬cur = []
      · rw [show arrChunkStep maxCS ⟨chunks, cur, curSize⟩ p
            = ⟨chunks ++ [cur], [p], p.2⟩ by simp [arrChunkStep, List.isEmpty_iff, hb]]
        apply ih
        · intro g hg
          simp at hg
          rcases hg with hg | hg
          · exact hchunks g hg
          · subst hg
            rcases hcur with hcur | hcur
            · exact absurd hcur hb.2
            · exact hcur
        · right
          left
          rfl
        · simp
      · rw [show arrChunkStep maxCS ⟨chunks, cur, curSize⟩ p
            = ⟨chunks, cur ++ [p], curSize + p.2⟩ by simp [arrChunkStep, List.isEmpty_iff, hb]]
        apply ih
        · exact hchunks
        · rcases Decidable.em (cur = []) with hc | hc
          · subst hc
            right
            left
            rfl
          · right
            right
            have h1 : ¬ maxCS < curSize + p.2 := by
              intro hgt
              exact hb ⟨hgt, hc⟩
            simp [hsz]
            omega
        · simp [hsz]

theorem chunkArray_flatten (maxCS : Nat) (ps : List (JVal × Nat)) :
    (chunkArray maxCS ps).flatten = ps := by
  unfold chunkArray
  rw [arrChunk_fold_flatten]
  simp

theorem chunkArray_fits (maxCS : Nat) (ps : List (JVal × Nat)) :
    ∀ g ∈ chunkArray maxCS ps, chunkFits maxCS g := by
  unfold chunkArray
  apply arrChunk_fold_fits
  · intro g hg
    simp at hg
  · left
    rfl
  · rfl

/-- Value of an entry after the Truncator pass an oversized entry receives
inside the object branch of `chunkResponse` (the entry's value formatted at
depth 1 with fresh truncation state). -/
def truncEntryValue (options : FormattingOptions) (v : JVal) : JVal :=
  (formatValue (options.maxArrayItems.getD MAX_ARRAY_ITEMS)
    (options.maxObjectDepth.getD MAX_OBJECT_DEPTH) v 1 ⟨false, 0, none⟩).1

theorem realizeObjChunk_big (options : FormattingOptions) (k : String) (v : JVal) :
    realizeObjChunk options (.big k v) =
      .jobj (.cons k (truncEntryValue options v) .nil) := by
  unfold realizeObjChunk formatTruncatedResponse truncEntryValue
  dsimp only
  rcases hE : formatValue (options.maxArrayItems.getD MAX_ARRAY_ITEMS)
      (options.maxObjectDepth.getD MAX_OBJECT_DEPTH) v 1 ⟨false, 0, none⟩ with ⟨w, st1⟩
  rw [formatValue.eq_def]
  dsimp only
  rw [if_neg (by omega : ¬ (0 > options.maxObjectDepth.getD MAX_OBJECT_DEPTH))]
  simp only [formatValueE, hE]

/-- The ordered key/value pairs a chunk of the object branch contributes to
the output. -/
def objChunkEntries (options : FormattingOptions) : ObjChunk → List (String × JVal)
  | .grp ps => ps.map Prod.fst
  | .big k v => [(k, truncEntryValue options v)]

theorem realizeObjChunk_entries (options : FormattingOptions) (c : ObjChunk) :
    realizeObjChunk options c = .jobj (JEnts.ofList (objChunkEntries options c)) := by
  cases c with
  | grp ps => rfl
  | big k v => rw [realizeObjChunk_big]; rfl

theorem objChunkStep_big (maxCS : Nat) (s : ObjChunkState) (p : (String × JVal) × Nat)
    (h : p.2 > maxCS) (hf : s.curSize > 0 ∧ s.cur ≠ []) :
    objChunkStep maxCS s p
      = ⟨(s.chunks ++ [ObjChunk.grp s.cur]) ++ [ObjChunk.big p.1.1 p.1.2], [], 0⟩ := by
  simp [objChunkStep, List.isEmpty_iff, h, hf.1, hf.2]

theorem objChunkStep_bigEmpty (maxCS : Nat) (s : ObjChunkState) (p : (String × JVal) × Nat)
    (h : p.2 > maxCS) (hf : ¬(s.curSize > 0 ∧ s.cur ≠ [])) :
    objChunkStep maxCS s p = ⟨s.chunks ++ [ObjChunk.big p.1.1 p.1.2], [], 0⟩ := by
  simp only [objChunkStep, if_pos h]
  rcases Decidable.em (s.cur = []) with hc | hc
  · simp [hc]
  · have h0 : ¬ s.curSize > 0 := fun hgt => hf ⟨hgt, hc⟩
    simp [List.isEmpty_iff, hc, h0]

theorem objChunkStep_flush (maxCS : Nat) (s : ObjChunkState) (p : (String × JVal) × Nat)
    (h : ¬ p.2 > maxCS) (hc : maxCS < s.curSize + p.2 ∧ s.cur ≠ []) :
    objChunkStep maxCS s p = ⟨s.chunks ++ [ObjChunk.grp s.cur], [p], p.2⟩ := by
  simp [objChunkStep, List.isEmpty_iff, h, hc.1, hc.2]

theorem objChunkStep_app (maxCS : Nat) (s : ObjChunkState) (p : (String × JVal) × Nat)
    (h : ¬ p.2 > maxCS) (hc : ¬(maxCS < s.curSize + p.2 ∧ s.cur ≠ [])) :
    objChunkStep maxCS s p = ⟨s.chunks, s.cur ++ [p], s.curSize + p.2⟩ := by
  simp only [objChunkStep, if_neg h]
  rcases Decidable.em (s.cur = []) with hce | hce
  · simp [hce]
  · have h0 : ¬ maxCS < s.curSize + p.2 := fun hgt => hc ⟨hgt, hce⟩
    simp [List.isEmpty_iff, hce, h0]

theorem objChunk_fold_flatten (maxCS : Nat) (options : FormattingOptions) :
    ∀ (ps : List ((String × JVal) × Nat)) (s : ObjChunkState),
    (∀ p ∈ ps, 1 ≤ p.2) →
    s.curSize = (s.cur.map Prod.snd).sum →
    (∀ p ∈ s.cur, 1 ≤ p.2) →
    ((objChunkFinish (ps.foldl (objChunkStep maxCS) s)).map (objChunkEntries options)).flatten
      = (s.chunks.map (objChunkEntries options)).flatten ++ s.cur.map Prod.fst
        ++ ps.map (fun p =>
            if p.2 > maxCS then (p.1.1, truncEntryValue options p.1.2) else p.1) := by
  intro ps
  induction ps with
  | nil =>
      intro s hpos hsz hposcur
      rcases s with ⟨chunks, cur, curSize⟩
      by_cases hc : cur = []
      · simp [objChunkFinish, hc]
      · simp [objChunkFinish, List.isEmpty_iff, hc, objChunkEntries]
  | cons p ps ih =>
      intro s hpos hsz hposcur
      rw [List.foldl_cons]
      rcases s with ⟨chunks, cur, curSize⟩
      have hpos' : ∀ q ∈ ps, 1 ≤ q.2 := fun q hq => hpos q (List.mem_cons_of_mem p hq)
      have hp1 : 1 ≤ p.2 := hpos p (List.mem_cons_self p ps)
      by_cases hbig : p.2 > maxCS
      · by_cases hflush : curSize > 0 ∧ cur ≠ []
        · rw [objChunkStep_big maxCS ⟨chunks, cur, curSize⟩ p hbig hflush]
          rw [ih _ hpos' rfl (by intro q hq; simp at hq)]
          simp [objChunkEntries, hbig]
        · have hcur : cur = [] := by
            rcases Decidable.em (cur = []) with hc | hc
            · exact hc
            · exfalso
              apply hflush
              refine ⟨?_, hc⟩
              rcases cur with _ | ⟨q, qs⟩
              · exact absurd rfl hc
              · have h1 : 1 ≤ q.2 := hposcur q (List.mem_cons_self q qs)
                have hsz' : curSize = (List.map Prod.snd (q :: qs)).sum := hsz
                show 0 < curSize
                rw [hsz']
                simp
                omega
          subst hcur
          rw [objChunkStep_bigEmpty maxCS ⟨chunks, [], curSize⟩ p hbig hflush]
          rw [ih _ hpos' rfl (by intro q hq; simp at hq)]
          simp [objChunkEntries, hbig]
      · by_cases hb : maxCS < curSize + p.2 ∧ cur ≠ []
        · rw [objChunkStep_flush maxCS ⟨chunks, cur, curSize⟩ p hbig hb]
          rw [ih _ hpos' (by simp)
              (by
                intro q hq
                simp at hq
                subst hq
                exact hp1)]
          simp [objChunkEntries, hbig]
        · rw [objChunkStep_app maxCS ⟨chunks, cur, curSize⟩ p hbig hb]
          rw [ih _ hpos'
              (by simp at hsz ⊢; simp [hsz])
              (by
                intro q hq
                simp at hq
                rcases hq with hq | hq
                · exact hposcur q hq
                · subst hq
                  exact hp1)]
          simp [objChunkEntries, hbig]

/-- A chunk of the object branch respects the budget when it is an
accumulated group whose entry sizes sum to at most the budget; an isolated
oversized entry is the exceptional case. -/
def objChunkOk (maxCS : Nat) : ObjChunk → Prop
  | .grp ps => (ps.map Prod.snd).sum ≤ maxCS
  | .big _ _ => True

theorem objChunk_fold_fits (maxCS : Nat) :
    ∀ (ps : List ((String × JVal) × Nat)) (s : ObjChunkState),
    (∀ c ∈ s.chunks, objChunkOk maxCS c) →
    s.curSize = (s.cur.map Prod.snd).sum →
    (s.cur.map Prod.snd).sum ≤ maxCS →
    ∀ c ∈ objChunkFinish (ps.foldl (objChunkStep maxCS) s), objChunkOk maxCS c := by
  intro ps
  induction ps with
  | nil =>
      intro s hchunks hsz hle c hc
      rcases s with ⟨chunks, cur, curSize⟩
      by_cases hce : cur = []
      · simp [objChunkFinish, hce] at hc
        exact hchunks c hc
      · simp [objChunkFinish, List.isEmpty_iff, hce] at hc
        rcases hc with hc | hc
        · exact hchunks c hc
        · subst hc
          exact hle
  | cons p ps ih =>
      intro s hchunks hsz hle
      rw [List.foldl_cons]
      rcases s with ⟨chunks, cur, curSize⟩
      have hsz' : curSize = (cur.map Prod.snd).sum := hsz
      have hle' : (cur.map Prod.snd).sum ≤ maxCS := hle
      by_cases hbig : p.2 > maxCS
      · by_cases hflush : curSize > 0 ∧ cur ≠ []
        · rw [objChunkStep_big maxCS ⟨chunks, cur, curSize⟩ p hbig hflush]
          apply ih
          · intro c hc
            simp at hc
            rcases hc with hc | hc | hc
            · exact hchunks c hc
            · subst hc
              exact hle'
            · subst hc
              trivial
          · rfl
          · simp
        · rw [objChunkStep_bigEmpty maxCS ⟨chunks, cur, curSize⟩ p hbig hflush]
          apply ih
          · intro c hc
            simp at hc
            rcases hc with hc | hc
            · exact hchunks c hc
            · subst hc
              trivial
          · rfl
          · simp
      · by_cases hb : maxCS < curSize + p.2 ∧ cur ≠ []
        · rw [objChunkStep_flush maxCS ⟨chunks, cur, curSize⟩ p hbig hb]
          apply ih
          · intro c hc
            simp at hc
            rcases hc with hc | hc
            · exact hchunks c hc
            · subst hc
              exact hle'
          · simp
          · simp
            omega
        · rw [objChunkStep_app maxCS ⟨chunks, cur, curSize⟩ p hbig hb]
          apply ih
          · exact hchunks
          · simp [hsz']
          · rcases Decidable.em (cur = []) with hce | hce
            · subst hce
              simp
              omega
            · have h0 : ¬ maxCS < curSize + p.2 := fun hgt => hb ⟨hgt, hce⟩
              simp
              omega
  
theorem chunkObject_fits (maxCS : Nat) (ps : List ((String × JVal) × Nat)) :
    ∀ c ∈ chunkObject maxCS ps, objChunkOk maxCS c := by
  unfold chunkObject
  apply objChunk_fold_fits
  · intro c hc
    simp at hc
  · rfl
  · simp

theorem chunkObject_flatten (maxCS : Nat) (options : FormattingOptions)
    (ps : List ((String × JVal) × Nat)) (hpos : ∀ p ∈ ps, 1 ≤ p.2) :
    ((chunkObject maxCS ps).map (objChunkEntries options)).flatten
      = ps.map (fun p =>
          if p.2 > maxCS then (p.1.1, truncEntryValue options p.1.2) else p.1) := by
  unfold chunkObject
  rw [objChunk_fold_flatten maxCS options ps ⟨[], [], 0⟩ hpos rfl (by intro q hq; simp at hq)]
  simp

theorem itemSizes_fst : ∀ (xs : List JVal) (ps : List (JVal × Nat)),
    itemSizes xs = .ok ps → ps.map Prod.fst = xs := by
  intro xs
  induction xs with
  | nil =>
      intro ps h
      simp [itemSizes] at h
      subst h
      rfl
  | cons x xs ih =>
      intro ps h
      rw [itemSizes] at h
      rcases h1 : jsonStringify x with e | s <;> rw [h1] at h
      · cases h
      · rcases h2 : itemSizes xs with e | rest <;> rw [h2] at h
        · cases h
        · injection h with h
          subst h
          simp [ih rest h2]

theorem entrySizes_fst : ∀ (kvs : List (String × JVal)) (ps : List ((String × JVal) × Nat)),
    entrySizes kvs = .ok ps → ps.map Prod.fst = kvs := by
  intro kvs
  induction kvs with
  | nil =>
      intro ps h
      simp [entrySizes] at h
      subst h
      rfl
  | cons kv kvs ih =>
      intro ps h
      rcases kv with ⟨k, v⟩
      rw [entrySizes] at h
      rcases h1 : jsonStringify (.jobj (.cons k v .nil)) with e | s <;> rw [h1] at h
      · cases h
      · rcases h2 : entrySizes kvs with e | rest <;> rw [h2] at h
        · cases h
        · injection h with h
          subst h
          simp [ih rest h2]

theorem jsonStringify_obj_len (kvs : JEnts) (s : String)
    (h : jsonStringify (.jobj kvs) = .ok s) : 1 ≤ s.length := by
  rw [jsonStringify] at h
  rcases h1 : jsonStringifyE kvs with e | parts <;> rw [h1] at h
  · cases h
  · injection h with h
    subst h
    simp [String.length_append]
    have h2 : ("\x7b" : String).length = 1 := rfl
    omega

theorem entrySizes_pos : ∀ (kvs : List (String × JVal)) (ps : List ((String × JVal) × Nat)),
    entrySizes kvs = .ok ps → ∀ p ∈ ps, 1 ≤ p.2 := by
  intro kvs
  induction kvs with
  | nil =>
      intro ps h p hp
      simp [entrySizes] at h
      subst h
      simp at hp
  | cons kv kvs ih =>
      intro ps h p hp
      rcases kv with ⟨k, v⟩
      rw [entrySizes] at h
      rcases h1 : jsonStringify (.jobj (.cons k v .nil)) with e | s <;> rw [h1] at h
      · cases h
      · rcases h2 : entrySizes kvs with e | rest <;> rw [h2] at h
        · cases h
        · injection h with h
          subst h
          rcases List.mem_cons.mp hp with hp | hp
          · subst hp
            exact jsonStringify_obj_len (.cons k v .nil) s h1
          · exact ih rest h2 p hp

theorem itemSizes_err : ∀ (xs : List JVal),
    (∃ x ∈ xs, hasBigV x = true) → itemSizes xs = .error () := by
  intro xs
  induction xs with
  | nil =>
      intro h
      rcases h with ⟨x, hx, _⟩
      simp at hx
  | cons x xs ih =>
      intro h
      rw [itemSizes]
      rcases h with ⟨y, hy, hbig⟩
      rcases List.mem_cons.mp hy with hy | hy
      · subst hy
        have : isErr (jsonStringify y) = true := by rw [isErr_jsonStringify]; exact hbig
        rcases hjs : jsonStringify y with e | s
        · rfl
        · rw [hjs] at this
          simp [isErr] at this
      · rw [ih ⟨y, hy, hbig⟩]
        rcases hjs : jsonStringify x with e | s <;> rfl

theorem chunkResponse_arr (options : FormattingOptions) (xs : JList)
    (ps : List (JVal × Nat)) (h : itemSizes xs.toList = .ok ps) :
    chunkResponse (.jarr xs) options =
      .ok ⟨(chunkArray (options.maxChunkSize.getD MAX_CHUNK_SIZE) ps).map
             (fun g => JVal.jarr (JList.ofList (g.map Prod.fst))),
           if ((chunkArray (options.maxChunkSize.getD MAX_CHUNK_SIZE) ps).map
                 (fun g => JVal.jarr (JList.ofList (g.map Prod.fst)))).length > 1
           then some (arrayToken xs.len) else none⟩ := by
  simp [chunkResponse, h]

theorem chunkResponse_obj (options : FormattingOptions) (kvs : JEnts)
    (ps : List ((String × JVal) × Nat)) (h : entrySizes kvs.toList = .ok ps) :
    chunkResponse (.jobj kvs) options =
      .ok ⟨(chunkObject (options.maxChunkSize.getD MAX_CHUNK_SIZE) ps).map
             (realizeObjChunk options),
           if ((chunkObject (options.maxChunkSize.getD MAX_CHUNK_SIZE) ps).map
                 (realizeObjChunk options)).length > 1
           then some (objectToken (kvs.toList.map Prod.fst)) else none⟩ := by
  simp [chunkResponse, h]

/-- C3: the claim fails on the code.  Chunking the array [1, 1, 1, 1] with
maxChunkSize = 4 produces one fragment holding all four elements (the loop
only bounds the sum of the elements' own serialized sizes, 4 · 1 ≤ 4), and
that fragment's serialized form "[1,1,1,1]" has length 9 > 4 — a fragment
over the budget that holds four atomic elements, not a single oversized
one. -/
theorem c3_counterexample :
    chunkResponse
        (.jarr (.cons (.jnum 1) (.cons (.jnum 1) (.cons (.jnum 1) (.cons (.jnum 1) .nil)))))
        { maxChunkSize := some 4 }
      = .ok ⟨[.jarr (.cons (.jnum 1) (.cons (.jnum 1) (.cons (.jnum 1) (.cons (.jnum 1) .nil))))],
             none⟩ ∧
    jsonStringify
        (.jarr (.cons (.jnum 1) (.cons (.jnum 1) (.cons (.jnum 1) (.cons (.jnum 1) .nil)))))
      = .ok "[1,1,1,1]" ∧
    4 < ("[1,1,1,1]" : String).length ∧
    1 < (JList.cons (JVal.jnum 1)
          (.cons (.jnum 1) (.cons (.jnum 1) (.cons (.jnum 1) .nil)))).len := by
  refine ⟨by decide, by decide, by decide, by decide⟩

/-- C3 (amended): the budget the chunker enforces is on the sum of the
members' own compact serialized sizes, not on the fragment's serialized
text (which adds separators and, in the emitted fragment, pretty-printing
indentation, and can therefore exceed maxChunkSize — see the
counterexample).  For the array path every chunk is a singleton (possibly
oversized, emitted without further splitting) or has member sizes summing
to at most maxChunkSize; for the object path every chunk is either an
accumulated group whose entry sizes sum to at most maxChunkSize or the
recursively truncated form of a single oversized entry. -/
theorem c3 (options : FormattingOptions) :
    (∀ (xs : JList) (ps : List (JVal × Nat)) (res : ChunkResult),
       itemSizes xs.toList = .ok ps →
       chunkResponse (.jarr xs) options = .ok res →
       res.chunks = (chunkArray (options.maxChunkSize.getD MAX_CHUNK_SIZE) ps).map
           (fun g => JVal.jarr (JList.ofList (g.map Prod.fst))) ∧
       ∀ g ∈ chunkArray (options.maxChunkSize.getD MAX_CHUNK_SIZE) ps,
         chunkFits (options.maxChunkSize.getD MAX_CHUNK_SIZE) g) ∧
    (∀ (kvs : JEnts) (ps : List ((String × JVal) × Nat)) (res : ChunkResult),
       entrySizes kvs.toList = .ok ps →
       chunkResponse (.jobj kvs) options = .ok res →
       res.chunks = (chunkObject (options.maxChunkSize.getD MAX_CHUNK_SIZE) ps).map
           (realizeObjChunk options) ∧
       ∀ c ∈ chunkObject (options.maxChunkSize.getD MAX_CHUNK_SIZE) ps,
         objChunkOk (options.maxChunkSize.getD MAX_CHUNK_SIZE) c) := by
  constructor
  · intro xs ps res hps hres
    rw [chunkResponse_arr options xs ps hps] at hres
    injection hres with hres
    subst hres
    exact ⟨rfl, chunkArray_fits _ ps⟩
  · intro kvs ps res hps hres
    rw [chunkResponse_obj options kvs ps hps] at hres
    injection hres with hres
    subst hres
    exact ⟨rfl, chunkObject_fits _ ps⟩

/-- Witness for c3 at the array [1, 1, 1, 1] with maxChunkSize = 4. -/
theorem c3_witness :
    ((⟨[.jarr (.cons (.jnum 1) (.cons (.jnum 1) (.cons (.jnum 1) (.cons (.jnum 1) .nil))))],
        none⟩ : ChunkResult).chunks
        = (chunkArray 4 [(.jnum 1, 1), (.jnum 1, 1), (.jnum 1, 1), (.jnum 1, 1)]).map
            (fun g => JVal.jarr (JList.ofList (g.map Prod.fst))) ∧
      ∀ g ∈ chunkArray 4 [((JVal.jnum 1 : JVal), 1), (.jnum 1, 1), (.jnum 1, 1), (.jnum 1, 1)],
        chunkFits 4 g) :=
  (c3 { maxChunkSize := some 4 }).1
    (.cons (.jnum 1) (.cons (.jnum 1) (.cons (.jnum 1) (.cons (.jnum 1) .nil))))
    [(.jnum 1, 1), (.jnum 1, 1), (.jnum 1, 1), (.jnum 1, 1)]
    ⟨[.jarr (.cons (.jnum 1) (.cons (.jnum 1) (.cons (.jnum 1) (.cons (.jnum 1) .nil))))], none⟩
    (by decide) (by decide)

/-- C4: the claim fails on the code.  Chunking the one-entry object
mapping "a" to the array [0, 0, 0] with maxArrayItems = 1 and
maxChunkSize = 5 routes the entry (entry JSON size 13 > 5) through the
Truncator: the single produced fragment carries the pair
("a", [0, "... 2 more items"]), so concatenating the fragments' pair
groups yields a different value than the input — content was altered, not
reconstructed exactly. -/
theorem c4_counterexample :
    chunkResponse
        (.jobj (.cons "a" (.jarr (.cons (.jnum 0) (.cons (.jnum 0) (.cons (.jnum 0) .nil)))) .nil))
        { maxArrayItems := some 1, maxChunkSize := some 5 }
      = .ok ⟨[.jobj (.cons "a"
            (.jarr (.cons (.jnum 0) (.cons (.jstr "... 2 more items") .nil))) .nil)], none⟩ ∧
    (JVal.jobj (.cons "a"
        (.jarr (.cons (.jnum 0) (.cons (.jstr "... 2 more items") .nil))) .nil)) ≠
      .jobj (.cons "a" (.jarr (.cons (.jnum 0) (.cons (.jnum 0) (.cons (.jnum 0) .nil)))) .nil) := by
  refine ⟨by decide, by decide⟩

/-- C4 (amended): the round-trip holds exactly for sequences — concatenating
the element groups of the fragments reconstructs the input array with
nothing lost, duplicated or reordered.  For mappings the key order is
preserved and every pair whose entry serialization fits within maxChunkSize
is carried unchanged, but a pair whose entry alone exceeds maxChunkSize is
re-emitted with its value passed through the Truncator, so the
concatenation reconstructs the input only up to that per-oversized-entry
truncation. -/
theorem c4 (options : FormattingOptions) :
    (∀ (xs : JList) (ps : List (JVal × Nat)) (res : ChunkResult),
       itemSizes xs.toList = .ok ps →
       chunkResponse (.jarr xs) options = .ok res →
       res.chunks = (chunkArray (options.maxChunkSize.getD MAX_CHUNK_SIZE) ps).map
           (fun g => JVal.jarr (JList.ofList (g.map Prod.fst))) ∧
       ((chunkArray (options.maxChunkSize.getD MAX_CHUNK_SIZE) ps).map
           (fun g => g.map Prod.fst)).flatten = xs.toList) ∧
    (∀ (kvs : JEnts) (ps : List ((String × JVal) × Nat)) (res : ChunkResult),
       entrySizes kvs.toList = .ok ps →
       chunkResponse (.jobj kvs) options = .ok res →
       res.chunks = (chunkObject (options.maxChunkSize.getD MAX_CHUNK_SIZE) ps).map
           (realizeObjChunk options) ∧
       ((chunkObject (options.maxChunkSize.getD MAX_CHUNK_SIZE) ps).map
           (objChunkEntries options)).flatten
         = ps.map (fun p =>
             if p.2 > options.maxChunkSize.getD MAX_CHUNK_SIZE
             then (p.1.1, truncEntryValue options p.1.2) else p.1) ∧
       (ps.map (fun p =>
           if p.2 > options.maxChunkSize.getD MAX_CHUNK_SIZE
           then (p.1.1, truncEntryValue options p.1.2) else p.1)).map Prod.fst
         = kvs.toList.map Prod.fst) := by
  constructor
  · intro xs ps res hps hres
    rw [chunkResponse_arr options xs ps hps] at hres
    injection hres with hres
    subst hres
    refine ⟨rfl, ?_⟩
    rw [← List.map_flatten, chunkArray_flatten, itemSizes_fst xs.toList ps hps]
  · intro kvs ps res hps hres
    rw [chunkResponse_obj options kvs ps hps] at hres
    injection hres with hres
    subst hres
    refine ⟨rfl, ?_, ?_⟩
    · exact chunkObject_flatten _ options ps (entrySizes_pos kvs.toList ps hps)
    · have hfst := entrySizes_fst kvs.toList ps hps
      rw [← hfst]
      rw [List.map_map, List.map_map]
      apply List.map_congr_left
      intro p hp
      by_cases hbig : p.2 > options.maxChunkSize.getD MAX_CHUNK_SIZE
      · simp [hbig]
      · simp [hbig]

/-- Witness for c4 at the array [1, 2, 3] with maxChunkSize = 2 (two
fragments [1, 2] and [3], concatenating back to the input). -/
theorem c4_witness :
    ((⟨[.jarr (.cons (.jnum 1) (.cons (.jnum 2) .nil)), .jarr (.cons (.jnum 3) .nil)],
        some (arrayToken 3)⟩ : ChunkResult).chunks
       = (chunkArray 2 [(.jnum 1, 1), (.jnum 2, 1), (.jnum 3, 1)]).map
           (fun g => JVal.jarr (JList.ofList (g.map Prod.fst))) ∧
     ((chunkArray 2 [((JVal.jnum 1 : JVal), 1), (.jnum 2, 1), (.jnum 3, 1)]).map
         (fun g => g.map Prod.fst)).flatten
       = (JList.cons (JVal.jnum 1) (.cons (.jnum 2) (.cons (.jnum 3) .nil))).toList) :=
  (c4 { maxResponseSize := some 1, maxChunkSize := some 2 }).1
    (.cons (.jnum 1) (.cons (.jnum 2) (.cons (.jnum 3) .nil)))
    [(.jnum 1, 1), (.jnum 2, 1), (.jnum 3, 1)]
    ⟨[.jarr (.cons (.jnum 1) (.cons (.jnum 2) .nil)), .jarr (.cons (.jnum 3) .nil)],
      some (arrayToken 3)⟩
    (by decide) (by decide)

theorem chunkResponse_token (v : JVal) (options : FormattingOptions) (res : ChunkResult)
    (h : chunkResponse v options = .ok res) :
    res.continuationToken.isSome = true ↔ 1 < res.chunks.length := by
  match v with
  | .jnull =>
      injection h with h
      subst h
      simp
  | .jbool b =>
      injection h with h
      subst h
      simp
  | .jnum n =>
      injection h with h
      subst h
      simp
  | .jstr s =>
      injection h with h
      subst h
      simp
  | .jbig n =>
      injection h with h
      subst h
      simp
  | .jarr xs =>
      rcases hps : itemSizes xs.toList with e | ps
      · rw [chunkResponse] at h
        rw [hps] at h
        cases h
      · rw [chunkResponse_arr options xs ps hps] at h
        injection h with h
        subst h
        by_cases hlen :
            1 < ((chunkArray (options.maxChunkSize.getD MAX_CHUNK_SIZE) ps).map
              (fun g => JVal.jarr (JList.ofList (g.map Prod.fst)))).length
        · simp [hlen]
        · simp [hlen]
  | .jobj kvs =>
      rcases hps : entrySizes kvs.toList with e | ps
      · rw [chunkResponse] at h
        rw [hps] at h
        cases h
      · rw [chunkResponse_obj options kvs ps hps] at h
        injection h with h
        subst h
        by_cases hlen :
            1 < ((chunkObject (options.maxChunkSize.getD MAX_CHUNK_SIZE) ps).map
              (realizeObjChunk options)).length
        · simp [hlen]
        · simp [hlen]

theorem buildChunkFragments_spec :
    ∀ (options : FormattingOptions) (total : Nat) (tok : Option String) (i : Nat)
      (cs : List JVal) (frags : List ChunkedToolCallResult),
    buildChunkFragments options total tok i cs = .ok frags →
    frags.length = cs.length ∧
    ∀ (j : Nat) (hj : j < frags.length) (hj' : j < cs.length),
      (frags.get ⟨j, hj⟩).isChunked = some true ∧
      (frags.get ⟨j, hj⟩).chunkIndex = some (i + j) ∧
      (frags.get ⟨j, hj⟩).totalChunks = some total ∧
      (frags.get ⟨j, hj⟩).continuationToken = (if i + j = total - 1 then tok else none) ∧
      (frags.get ⟨j, hj⟩).metadata =
        (if (formatTruncatedResponse (cs.get ⟨j, hj'⟩) options).2.wasTruncated
         then some (formatTruncatedResponse (cs.get ⟨j, hj'⟩) options).2 else none) ∧
      stringifyData (formatTruncatedResponse (cs.get ⟨j, hj'⟩) options).1
        = .ok ((frags.get ⟨j, hj⟩).text) := by
  intro options total tok i cs
  induction cs generalizing i with
  | nil =>
      intro frags h
      rw [buildChunkFragments] at h
      injection h with h
      subst h
      exact ⟨rfl, fun j hj => absurd hj (by simp)⟩
  | cons c cs ih =>
      intro frags h
      rw [buildChunkFragments] at h
      rcases hT : formatTruncatedResponse c options with ⟨fd, md⟩
      rw [hT] at h
      dsimp only at h
      rcases hS : stringifyData fd with e | text <;> rw [hS] at h
      · cases h
      · rcases hR : buildChunkFragments options total tok (i + 1) cs with e | rest <;>
          rw [hR] at h
        · cases h
        · injection h with h
          subst h
          rcases ih (i + 1) rest hR with ⟨hlen, hfield⟩
          refine ⟨by simp [hlen], ?_⟩
          intro j hj hj'
          match j with
          | 0 =>
              refine ⟨rfl, by simp, rfl, by simp, ?_, ?_⟩
              · show (if md.wasTruncated then some md else none) = _
                simp [hT]
              · show stringifyData (formatTruncatedResponse c options).1 = .ok text
                rw [hT]
                exact hS
          | j + 1 =>
              have hj2 : j < rest.length := by simpa using hj
              have hj2' : j < cs.length := by simpa using hj'
              rcases hfield j hj2 hj2' with ⟨f1, f2, f3, f4, f5, f6⟩
              simp only [List.get_cons_succ]
              refine ⟨f1, ?_, f3, ?_, f5, f6⟩
              · rw [f2]
                congr 1
                omega
              · rw [f4]
                have heq : i + 1 + j = i + (j + 1) := by omega
                rw [heq]

theorem formatChunkedResponse_chunked (v : JVal) (options : FormattingOptions)
    (res : ChunkResult) (h1 : needsChunking v options = true)
    (h2 : chunkResponse v options = .ok res) :
    formatChunkedResponse v options
      = buildChunkFragments options res.chunks.length res.continuationToken 0 res.chunks := by
  rw [formatChunkedResponse, if_pos h1, h2]

/-- C9: on the chunking path, every fragment carries isChunked = true, its
0-based index, and totalChunks = the fragment count, and a continuation
token is present exactly on the last fragment of a result with more than
one fragment (a token is generated iff chunking produced more than one
fragment). -/
theorem c9 (v : JVal) (options : FormattingOptions) (res : ChunkResult)
    (frags : List ChunkedToolCallResult)
    (h1 : needsChunking v options = true)
    (h2 : chunkResponse v options = .ok res)
    (h3 : formatChunkedResponse v options = .ok frags) :
    frags.length = res.chunks.length ∧
    (res.continuationToken.isSome = true ↔ 1 < frags.length) ∧
    ∀ (j : Nat) (hj : j < frags.length),
      (frags.get ⟨j, hj⟩).isChunked = some true ∧
      (frags.get ⟨j, hj⟩).chunkIndex = some j ∧
      (frags.get ⟨j, hj⟩).totalChunks = some frags.length ∧
      ((frags.get ⟨j, hj⟩).continuationToken.isSome = true ↔
        (1 < frags.length ∧ j = frags.length - 1)) := by
  have hfc := formatChunkedResponse_chunked v options res h1 h2
  rw [hfc] at h3
  rcases buildChunkFragments_spec options res.chunks.length res.continuationToken 0
      res.chunks frags h3 with ⟨hlen, hfield⟩
  have htok := chunkResponse_token v options res h2
  refine ⟨hlen, by rw [hlen]; exact htok, ?_⟩
  intro j hj
  have hj' : j < res.chunks.length := by omega
  rcases hfield j hj hj' with ⟨f1, f2, f3, f4, f5, f6⟩
  refine ⟨f1, by simpa using f2, by rw [f3, hlen], ?_⟩
  rw [f4]
  by_cases hc : j = frags.length - 1
  · have hc0 : 0 + j = res.chunks.length - 1 := by omega
    rw [if_pos hc0]
    rw [← hlen] at htok
    constructor
    · intro hs
      exact ⟨htok.mp hs, hc⟩
    · intro hs
      exact htok.mpr hs.1
  · have hc0 : ¬ 0 + j = res.chunks.length - 1 := by omega
    rw [if_neg hc0]
    simp [hc]

/-- Witness for c9: chunking the singleton array [1] with
maxResponseSize = 1 produces one fragment with index 0, total 1 and no
continuation token. -/
theorem c9_witness :
    ([{ text := "[\n  1\n]", isChunked := some true, chunkIndex := some 0, totalChunks := some 1 }] : List ChunkedToolCallResult).length = (⟨[.jarr (.cons (.jnum 1) .nil)], none⟩ : ChunkResult).chunks.length ∧
    ((⟨[.jarr (.cons (.jnum 1) .nil)], none⟩ : ChunkResult).continuationToken.isSome = true ↔ 1 < ([{ text := "[\n  1\n]", isChunked := some true, chunkIndex := some 0, totalChunks := some 1 }] : List ChunkedToolCallResult).length) ∧
    ∀ (j : Nat) (hj : j < ([{ text := "[\n  1\n]", isChunked := some true, chunkIndex := some 0, totalChunks := some 1 }] : List ChunkedToolCallResult).length),
      (([{ text := "[\n  1\n]", isChunked := some true, chunkIndex := some 0, totalChunks := some 1 }] : List ChunkedToolCallResult).get ⟨j, hj⟩).isChunked = some true ∧
      (([{ text := "[\n  1\n]", isChunked := some true, chunkIndex := some 0, totalChunks := some 1 }] : List ChunkedToolCallResult).get ⟨j, hj⟩).chunkIndex = some j ∧
      (([{ text := "[\n  1\n]", isChunked := some true, chunkIndex := some 0, totalChunks := some 1 }] : List ChunkedToolCallResult).get ⟨j, hj⟩).totalChunks = some ([{ text := "[\n  1\n]", isChunked := some true, chunkIndex := some 0, totalChunks := some 1 }] : List ChunkedToolCallResult).length ∧
      ((([{ text := "[\n  1\n]", isChunked := some true, chunkIndex := some 0, totalChunks := some 1 }] : List ChunkedToolCallResult).get ⟨j, hj⟩).continuationToken.isSome = true ↔
        (1 < ([{ text := "[\n  1\n]", isChunked := some true, chunkIndex := some 0, totalChunks := some 1 }] : List ChunkedToolCallResult).length ∧ j = ([{ text := "[\n  1\n]", isChunked := some true, chunkIndex := some 0, totalChunks := some 1 }] : List ChunkedToolCallResult).length - 1)) :=
  c9 (.jarr (.cons (.jnum 1) .nil)) { maxResponseSize := some 1 }
    ⟨[.jarr (.cons (.jnum 1) .nil)], none⟩
    [{ text := "[\n  1\n]", isChunked := some true, chunkIndex := some 0, totalChunks := some 1 }]
    (by decide) (by decide) (by decide)

/-- C1: the claim fails on the code.  With maxResponseSize = 1,
maxArrayItems = 2 and maxChunkSize = 2, the 3-element array [1, 2, 3]
requires chunking; a single truncation pass of that input reports
wasTruncated = true (3 > 2 elements), yet the fragments the formatter
actually returns carry no truncation record at all — the raw value is
split first into the 2-element chunks [1, 2] and [3], and each chunk is
then truncated on its own, finding nothing over the limit.  The output
therefore differs from the spec's truncate-once-then-chunk pipeline
(specTruncateThenChunk) at this input. -/
theorem c1_counterexample :
    needsChunking (.jarr (.cons (.jnum 1) (.cons (.jnum 2) (.cons (.jnum 3) .nil))))
        { maxResponseSize := some 1, maxArrayItems := some 2, maxChunkSize := some 2 } = true ∧
    (formatTruncatedResponse (.jarr (.cons (.jnum 1) (.cons (.jnum 2) (.cons (.jnum 3) .nil))))
        { maxResponseSize := some 1, maxArrayItems := some 2,
          maxChunkSize := some 2 }).2.wasTruncated = true ∧
    (formatChunkedResponse (.jarr (.cons (.jnum 1) (.cons (.jnum 2) (.cons (.jnum 3) .nil))))
        { maxResponseSize := some 1, maxArrayItems := some 2, maxChunkSize := some 2 }).map
        (List.map ChunkedToolCallResult.metadata) = .ok [none, none] ∧
    formatChunkedResponse (.jarr (.cons (.jnum 1) (.cons (.jnum 2) (.cons (.jnum 3) .nil))))
        { maxResponseSize := some 1, maxArrayItems := some 2, maxChunkSize := some 2 }
      ≠ specTruncateThenChunk (.jarr (.cons (.jnum 1) (.cons (.jnum 2) (.cons (.jnum 3) .nil))))
          { maxResponseSize := some 1, maxArrayItems := some 2, maxChunkSize := some 2 } := by
  refine ⟨by decide, by decide, by decide, by decide⟩

/-- C1 (amended): when chunking is required the formatter splits the raw,
untruncated value first and only then runs the Truncator on each fragment
independently: fragment j's text is the serialization of truncating chunk j
on its own, and fragment j's truncation metadata is the record of that
per-fragment pass (attached only when that pass truncated) — there is no
shared single-pass record. -/
theorem c1 (v : JVal) (options : FormattingOptions) (res : ChunkResult)
    (frags : List ChunkedToolCallResult)
    (h1 : needsChunking v options = true)
    (h2 : chunkResponse v options = .ok res)
    (h3 : formatChunkedResponse v options = .ok frags) :
    frags.length = res.chunks.length ∧
    ∀ (j : Nat) (hj : j < frags.length) (hj' : j < res.chunks.length),
      (frags.get ⟨j, hj⟩).metadata =
        (if (formatTruncatedResponse (res.chunks.get ⟨j, hj'⟩) options).2.wasTruncated
         then some (formatTruncatedResponse (res.chunks.get ⟨j, hj'⟩) options).2 else none) ∧
      stringifyData (formatTruncatedResponse (res.chunks.get ⟨j, hj'⟩) options).1
        = .ok ((frags.get ⟨j, hj⟩).text) := by
  have hfc := formatChunkedResponse_chunked v options res h1 h2
  rw [hfc] at h3
  rcases buildChunkFragments_spec options res.chunks.length res.continuationToken 0
      res.chunks frags h3 with ⟨hlen, hfield⟩
  refine ⟨hlen, ?_⟩
  intro j hj hj'
  rcases hfield j hj hj' with ⟨f1, f2, f3, f4, f5, f6⟩
  exact ⟨f5, f6⟩

/-- Witness for c1 at the counterexample input: the per-fragment records of
the two chunks [1, 2] and [3]. -/
theorem c1_witness :
    ([{ text := "[\n  1,\n  2\n]", isChunked := some true, chunkIndex := some 0, totalChunks := some 2 }, { text := "[\n  3\n]", isChunked := some true, chunkIndex := some 1, totalChunks := some 2, continuationToken := some (arrayToken 3) }] : List ChunkedToolCallResult).length = (⟨[.jarr (.cons (.jnum 1) (.cons (.jnum 2) .nil)), .jarr (.cons (.jnum 3) .nil)], some (arrayToken 3)⟩ : ChunkResult).chunks.length ∧
    ∀ (j : Nat) (hj : j < ([{ text := "[\n  1,\n  2\n]", isChunked := some true, chunkIndex := some 0, totalChunks := some 2 }, { text := "[\n  3\n]", isChunked := some true, chunkIndex := some 1, totalChunks := some 2, continuationToken := some (arrayToken 3) }] : List ChunkedToolCallResult).length) (hj' : j < (⟨[.jarr (.cons (.jnum 1) (.cons (.jnum 2) .nil)), .jarr (.cons (.jnum 3) .nil)], some (arrayToken 3)⟩ : ChunkResult).chunks.length),
      (([{ text := "[\n  1,\n  2\n]", isChunked := some true, chunkIndex := some 0, totalChunks := some 2 }, { text := "[\n  3\n]", isChunked := some true, chunkIndex := some 1, totalChunks := some 2, continuationToken := some (arrayToken 3) }] : List ChunkedToolCallResult).get ⟨j, hj⟩).metadata = (if (formatTruncatedResponse ((⟨[.jarr (.cons (.jnum 1) (.cons (.jnum 2) .nil)), .jarr (.cons (.jnum 3) .nil)], some (arrayToken 3)⟩ : ChunkResult).chunks.get ⟨j, hj'⟩) { maxResponseSize := some 1, maxArrayItems := some 2, maxChunkSize := some 2 }).2.wasTruncated then some (formatTruncatedResponse ((⟨[.jarr (.cons (.jnum 1) (.cons (.jnum 2) .nil)), .jarr (.cons (.jnum 3) .nil)], some (arrayToken 3)⟩ : ChunkResult).chunks.get ⟨j, hj'⟩) { maxResponseSize := some 1, maxArrayItems := some 2, maxChunkSize := some 2 }).2 else none) ∧
      stringifyData (formatTruncatedResponse ((⟨[.jarr (.cons (.jnum 1) (.cons (.jnum 2) .nil)), .jarr (.cons (.jnum 3) .nil)], some (arrayToken 3)⟩ : ChunkResult).chunks.get ⟨j, hj'⟩) { maxResponseSize := some 1, maxArrayItems := some 2, maxChunkSize := some 2 }).1 = .ok (([{ text := "[\n  1,\n  2\n]", isChunked := some true, chunkIndex := some 0, totalChunks := some 2 }, { text := "[\n  3\n]", isChunked := some true, chunkIndex := some 1, totalChunks := some 2, continuationToken := some (arrayToken 3) }] : List ChunkedToolCallResult).get ⟨j, hj⟩).text :=
  c1 (.jarr (.cons (.jnum 1) (.cons (.jnum 2) (.cons (.jnum 3) .nil))))
    { maxResponseSize := some 1, maxArrayItems := some 2, maxChunkSize := some 2 }
    ⟨[.jarr (.cons (.jnum 1) (.cons (.jnum 2) .nil)), .jarr (.cons (.jnum 3) .nil)],
      some (arrayToken 3)⟩
    [{ text := "[\n  1,\n  2\n]", isChunked := some true, chunkIndex := some 0, totalChunks := some 2 }, { text := "[\n  3\n]", isChunked := some true, chunkIndex := some 1, totalChunks := some 2, continuationToken := some (arrayToken 3) }]
    (by decide) (by decide) (by decide)

theorem hasBigL_exists : ∀ xs : JList, hasBigL xs = true →
    ∃ x ∈ xs.toList, hasBigV x = true
  | .nil => by intro h; rw [hasBigL] at h; cases h
  | .cons x xs => by
      intro h
      rw [hasBigL] at h
      rcases Bool.or_eq_true_iff.mp h with h1 | h1
      · exact ⟨x, by simp [JList.toList], h1⟩
      · rcases hasBigL_exists xs h1 with ⟨y, hy, hb⟩
        exact ⟨y, by simp [JList.toList]; right; exact hy, hb⟩

/-- C6: the claim fails on the code.  Formatting the array holding a single
BigInt (a value JSON.stringify cannot serialize) does not return an error
fragment: the serialization failure inside the chunking loop propagates
uncaught out of formatChunkedResponse (the only catch in the layer is the
one inside needsChunking, which merely routes the value into the chunking
path). -/
theorem c6_counterexample :
    formatChunkedResponse (.jarr (.cons (.jbig 1) .nil)) {} = .error () := by
  decide

/-- C6 (amended): a serialization failure during the admission check is
swallowed (needsChunking conservatively answers true), but a serialization
failure during fragment production is NOT converted into an error fragment:
for any array containing a BigInt anywhere, formatChunkedResponse throws
(returns `.error`), propagating the exception to its caller; error
fragments are produced only by the separate createErrorResponse entry
point. -/
theorem c6 (xs : JList) (options : FormattingOptions) (h : hasBigL xs = true) :
    needsChunking (.jarr xs) options = true ∧
    formatChunkedResponse (.jarr xs) options = .error () ∧
    (createErrorResponse "boom").isError = true := by
  have hbigv : hasBigV (.jarr xs) = true := by rw [hasBigV]; exact h
  have hser : isErr (serializeToJson (.jarr xs)) = true := by
    rw [isErr_serializeToJson]
    exact hbigv
  have hneeds := needsChunking_of_serializeErr (.jarr xs) options hser
  have hitems : itemSizes xs.toList = .error () :=
    itemSizes_err xs.toList (hasBigL_exists xs h)
  refine ⟨hneeds, ?_, rfl⟩
  rw [formatChunkedResponse, if_pos hneeds, chunkResponse]
  rw [hitems]

/-- Witness for c6 at the singleton BigInt array. -/
theorem c6_witness :
    needsChunking (.jarr (.cons (.jbig 1) .nil)) {} = true ∧
    formatChunkedResponse (.jarr (.cons (.jbig 1) .nil)) {} = .error () ∧
    (createErrorResponse "boom").isError = true :=
  c6 (.cons (.jbig 1) .nil) {} (by decide)

/-- C10: chunking an empty array or an empty object yields zero chunks and
no continuation token, and when the chunking path is taken for such a value
the formatter returns the empty fragment list — no protocol message at
all. -/
theorem c10 (options : FormattingOptions) :
    chunkResponse (.jarr .nil) options = .ok ⟨[], none⟩ ∧
    chunkResponse (.jobj .nil) options = .ok ⟨[], none⟩ ∧
    (needsChunking (.jarr .nil) options = true →
       formatChunkedResponse (.jarr .nil) options = .ok []) ∧
    (needsChunking (.jobj .nil) options = true →
       formatChunkedResponse (.jobj .nil) options = .ok []) := by
  have ha : chunkResponse (.jarr .nil) options = .ok ⟨[], none⟩ := rfl
  have hb : chunkResponse (.jobj .nil) options = .ok ⟨[], none⟩ := rfl
  refine ⟨ha, hb, ?_, ?_⟩
  · intro h
    rw [formatChunkedResponse, if_pos h, ha]
    rfl
  · intro h
    rw [formatChunkedResponse, if_pos h, hb]
    rfl

/-- Witness for c10 with maxResponseSize = 1, which sends both empty
composites into the chunking path (estimate 8 > 1). -/
theorem c10_witness :
    needsChunking (.jarr .nil) { maxResponseSize := some 1 } = true ∧
    formatChunkedResponse (.jarr .nil) { maxResponseSize := some 1 } = .ok [] ∧
    needsChunking (.jobj .nil) { maxResponseSize := some 1 } = true ∧
    formatChunkedResponse (.jobj .nil) { maxResponseSize := some 1 } = .ok [] :=
  ⟨by decide, (c10 { maxResponseSize := some 1 }).2.2.1 (by decide),
   by decide, (c10 { maxResponseSize := some 1 }).2.2.2 (by decide)⟩

/-- Total weight of a heap (the weight of its not-yet-visited part under an
empty visited set). -/
def heapWeight (h : Heap) : Nat :=
  (h.map pairWeight).sum

theorem remWeight_nil_visited (h : Heap) : remWeight h [] = heapWeight h := by
  unfold remWeight heapWeight
  simp

theorem remWeight_cons (p : Nat × HNode) (hs : Heap) (v : List Nat) :
    remWeight (p :: hs) v = (if p.1 ∈ v then 0 else pairWeight p) + remWeight hs v := by
  unfold remWeight
  by_cases hv : p.1 ∈ v
  · rw [List.filter_cons_of_neg (by simpa using hv)]
    simp [hv]
  · rw [List.filter_cons_of_pos (by simpa using hv)]
    simp [hv]

theorem lookupNode_cons_self (i : Nat) (nd : HNode) (hs : Heap) :
    lookupNode ((i, nd) :: hs) i = some nd := by
  simp [lookupNode, List.find?_cons]

theorem lookupNode_cons_ne (j : Nat) (nd' : HNode) (hs : Heap) (i : Nat) (h : j ≠ i) :
    lookupNode ((j, nd') :: hs) i = lookupNode hs i := by
  have hb : (j == i) = false := by
    simp [h]
  simp [lookupNode, List.find?_cons, hb]

theorem remWeight_mono (h : Heap) (v v' : List Nat) (hsub : ∀ j ∈ v, j ∈ v') :
    remWeight h v' ≤ remWeight h v := by
  induction h with
  | nil => simp [remWeight]
  | cons p hs ih =>
      rw [remWeight_cons, remWeight_cons]
      by_cases hv : p.1 ∈ v
      · have hv' : p.1 ∈ v' := hsub p.1 hv
        simp [hv, hv']
        exact ih
      · by_cases hv' : p.1 ∈ v'
        · simp [hv, hv']
          omega
        · simp [hv, hv']
          omega

theorem remWeight_cons_notin (h : Heap) (i : Nat) (v : List Nat)
    (hni : i ∉ h.map Prod.fst) : remWeight h (i :: v) = remWeight h v := by
  induction h with
  | nil => simp [remWeight]
  | cons p hs ih =>
      have hpi : p.1 ≠ i := by
        intro he
        apply hni
        simp [he]
      have hni' : i ∉ hs.map Prod.fst := by
        intro hmem
        apply hni
        simp [hmem]
      rw [remWeight_cons, remWeight_cons, ih hni']
      by_cases hv : p.1 ∈ v
      · have hiv : p.1 ∈ i :: v := by simp [hv]
        simp [hv, hiv]
      · have hiv : ¬ p.1 ∈ i :: v := by simp [hpi, hv]
        simp [hv, hiv]

theorem remWeight_expand (h : Heap) (i : Nat) (nd : HNode) (v : List Nat)
    (hnd : (h.map Prod.fst).Nodup) (hlk : lookupNode h i = some nd) (hv : i ∉ v) :
    remWeight h v = pairWeight (i, nd) + remWeight h (i :: v) := by
  induction h with
  | nil => simp [lookupNode] at hlk
  | cons p hs ih =>
      rcases p with ⟨j, nd'⟩
      have hmap : ((j, nd') :: hs).map Prod.fst = j :: hs.map Prod.fst := rfl
      rw [hmap] at hnd
      have hnodup_head : j ∉ hs.map Prod.fst := (List.nodup_cons.mp hnd).1
      have hnd' : (hs.map Prod.fst).Nodup := (List.nodup_cons.mp hnd).2
      by_cases hj : j = i
      · subst hj
        rw [lookupNode_cons_self] at hlk
        have hnd2 : nd' = nd := by injection hlk
        rw [← hnd2]
        rw [remWeight_cons, remWeight_cons,
          remWeight_cons_notin hs j v hnodup_head]
        have h1 : ¬ ((j, nd').1 ∈ v) := hv
        have h2 : ((j, nd').1 ∈ j :: v) := by simp
        simp [h1, h2]
      · rw [lookupNode_cons_ne j nd' hs i hj] at hlk
        rw [remWeight_cons, remWeight_cons, ih hnd' hlk]
        by_cases hjv : (j, nd').1 ∈ v
        · have hjiv : (j, nd').1 ∈ i :: v := by
            simp at hjv ⊢
            simp [hjv]
          simp [hjv, hjiv]
        · have hjiv : ¬ (j, nd').1 ∈ i :: v := by
            simp at hjv ⊢
            exact ⟨hj, hjv⟩
          simp [hjv, hjiv]
          omega

mutual

theorem sizeOfRef_vis (h : Heap) : ∀ (fuel : Nat) (v : List Nat) (r : HRef) (j : Nat),
    j ∈ v → j ∈ (sizeOfRef h fuel v r).2
  | fuel, v, .hnull, j, hj => by simp only [sizeOfRef]; exact hj
  | fuel, v, .hbool b, j, hj => by simp only [sizeOfRef]; exact hj
  | fuel, v, .hnum n, j, hj => by simp only [sizeOfRef]; exact hj
  | fuel, v, .hstr s, j, hj => by simp only [sizeOfRef]; exact hj
  | fuel, v, .hbig n, j, hj => by simp only [sizeOfRef]; exact hj
  | 0, v, .hptr i, j, hj => by
      simp only [sizeOfRef]
      by_cases hiv : i ∈ v
      · simp [hiv]
        exact hj
      · rcases hlk : lookupNode h i with _ | nd <;> simp [hiv, hlk] <;> exact hj
  | f + 1, v, .hptr i, j, hj => by
      simp only [sizeOfRef]
      by_cases hiv : i ∈ v
      · simp [hiv]
        exact hj
      · rcases hlk : lookupNode h i with _ | nd
        · simp [hiv, hlk]
          exact hj
        · simp [hiv, hlk]
          exact sizeOfNode_vis h f (i :: v) nd j (List.mem_cons_of_mem i hj)

theorem sizeOfNode_vis (h : Heap) : ∀ (fuel : Nat) (v : List Nat) (nd : HNode) (j : Nat),
    j ∈ v → j ∈ (sizeOfNode h fuel v nd).2
  | 0, v, nd, j, hj => by simp only [sizeOfNode]; exact hj
  | f + 1, v, .harr rs, j, hj => by
      simp only [sizeOfNode]
      rcases hE : sizeOfRefs h f v rs with ⟨n, v1⟩
      have hv1 := sizeOfRefs_vis h f v rs j hj
      rw [hE] at hv1
      simpa using hv1
  | f + 1, v, .hobj kvs, j, hj => by
      simp only [sizeOfNode]
      rcases hE : sizeOfProps h f v kvs with ⟨n, v1⟩
      have hv1 := sizeOfProps_vis h f v kvs j hj
      rw [hE] at hv1
      simpa using hv1

theorem sizeOfRefs_vis (h : Heap) : ∀ (fuel : Nat) (v : List Nat) (rs : List HRef) (j : Nat),
    j ∈ v → j ∈ (sizeOfRefs h fuel v rs).2
  | fuel, v, [], j, hj => by simp only [sizeOfRefs]; exact hj
  | 0, v, r :: rs, j, hj => by simp only [sizeOfRefs]; exact hj
  | f + 1, v, r :: rs, j, hj => by
      simp only [sizeOfRefs]
      rcases h1 : sizeOfRef h f v r with ⟨n, v1⟩
      have hv1 := sizeOfRef_vis h f v r j hj
      rw [h1] at hv1
      rcases h2 : sizeOfRefs h f v1 rs with ⟨m, v2⟩
      have hv2 := sizeOfRefs_vis h f v1 rs j hv1
      rw [h2] at hv2
      simpa [h1, h2] using hv2

theorem sizeOfProps_vis (h : Heap) :
    ∀ (fuel : Nat) (v : List Nat) (kvs : List (String × HRef)) (j : Nat),
    j ∈ v → j ∈ (sizeOfProps h fuel v kvs).2
  | fuel, v, [], j, hj => by simp only [sizeOfProps]; exact hj
  | 0, v, kv :: kvs, j, hj => by
      rcases kv with ⟨k, r⟩
      simp only [sizeOfProps]
      exact hj
  | f + 1, v, (k, r) :: kvs, j, hj => by
      simp only [sizeOfProps]
      rcases h1 : sizeOfRef h f v r with ⟨n, v1⟩
      have hv1 := sizeOfRef_vis h f v r j hj
      rw [h1] at hv1
      rcases h2 : sizeOfProps h f v1 kvs with ⟨m, v2⟩
      have hv2 := sizeOfProps_vis h f v1 kvs j hv1
      rw [h2] at hv2
      simpa [h1, h2] using hv2

end

mutual

theorem sizeOfRef_stable (h : Heap) (hnd : (h.map Prod.fst).Nodup) :
    ∀ (fuel : Nat) (v : List Nat) (r : HRef),
    remWeight h v < fuel → sizeOfRef h fuel v r = sizeOfRef h (fuel + 1) v r
  | fuel, v, .hnull, _ => by simp only [sizeOfRef]
  | fuel, v, .hbool b, _ => by simp only [sizeOfRef]
  | fuel, v, .hnum n, _ => by simp only [sizeOfRef]
  | fuel, v, .hstr s, _ => by simp only [sizeOfRef]
  | fuel, v, .hbig n, _ => by simp only [sizeOfRef]
  | 0, v, .hptr i, hlt => absurd hlt (by omega)
  | f + 1, v, .hptr i, hlt => by
      simp only [sizeOfRef]
      by_cases hiv : i ∈ v
      · simp [hiv]
      · rcases hlk : lookupNode h i with _ | nd
        · simp [hiv, hlk]
        · simp [hiv, hlk]
          have hexp := remWeight_expand h i nd v hnd hlk hiv
          have hbound : 2 + nodeLen nd + remWeight h (i :: v) ≤ f := by
            have : pairWeight (i, nd) = 2 + nodeLen nd := rfl
            omega
          exact sizeOfNode_stable h hnd f (i :: v) nd hbound

theorem sizeOfNode_stable (h : Heap) (hnd : (h.map Prod.fst).Nodup) :
    ∀ (fuel : Nat) (v : List Nat) (nd : HNode),
    2 + nodeLen nd + remWeight h v ≤ fuel → sizeOfNode h fuel v nd = sizeOfNode h (fuel + 1) v nd
  | 0, v, nd, hb => absurd hb (by omega)
  | f + 1, v, .harr rs, hb => by
      simp only [sizeOfNode]
      have hb' : rs.length + 1 + remWeight h v ≤ f := by
        have : nodeLen (.harr rs) = rs.length := rfl
        omega
      rw [sizeOfRefs_stable h hnd f v rs hb']
  | f + 1, v, .hobj kvs, hb => by
      simp only [sizeOfNode]
      have hb' : kvs.length + 1 + remWeight h v ≤ f := by
        have : nodeLen (.hobj kvs) = kvs.length := rfl
        omega
      rw [sizeOfProps_stable h hnd f v kvs hb']

theorem sizeOfRefs_stable (h : Heap) (hnd : (h.map Prod.fst).Nodup) :
    ∀ (fuel : Nat) (v : List Nat) (rs : List HRef),
    rs.length + 1 + remWeight h v ≤ fuel → sizeOfRefs h fuel v rs = sizeOfRefs h (fuel + 1) v rs
  | fuel, v, [], _ => by simp only [sizeOfRefs]
  | 0, v, r :: rs, hb => absurd hb (by omega)
  | f + 1, v, r :: rs, hb => by
      simp only [sizeOfRefs]
      have h1 : sizeOfRef h f v r = sizeOfRef h (f + 1) v r :=
        sizeOfRef_stable h hnd f v r (by simp at hb; omega)
      rcases hE : sizeOfRef h f v r with ⟨n, v1⟩
      have hE2 : sizeOfRef h (f + 1) v r = (n, v1) := by rw [← h1]; exact hE
      rw [hE2]
      dsimp only
      have hsub : ∀ j ∈ v, j ∈ v1 := by
        intro j hj
        have := sizeOfRef_vis h f v r j hj
        rw [hE] at this
        exact this
      have hrem : remWeight h v1 ≤ remWeight h v := remWeight_mono h v v1 hsub
      have h2 : sizeOfRefs h f v1 rs = sizeOfRefs h (f + 1) v1 rs :=
        sizeOfRefs_stable h hnd f v1 rs (by simp at hb; omega)
      rw [h2]

theorem sizeOfProps_stable (h : Heap) (hnd : (h.map Prod.fst).Nodup) :
    ∀ (fuel : Nat) (v : List Nat) (kvs : List (String × HRef)),
    kvs.length + 1 + remWeight h v ≤ fuel → sizeOfProps h fuel v kvs = sizeOfProps h (fuel + 1) v kvs
  | fuel, v, [], _ => by simp only [sizeOfProps]
  | 0, v, kv :: kvs, hb => absurd hb (by omega)
  | f + 1, v, (k, r) :: kvs, hb => by
      simp only [sizeOfProps]
      have h1 : sizeOfRef h f v r = sizeOfRef h (f + 1) v r :=
        sizeOfRef_stable h hnd f v r (by simp at hb; omega)
      rcases hE : sizeOfRef h f v r with ⟨n, v1⟩
      have hE2 : sizeOfRef h (f + 1) v r = (n, v1) := by rw [← h1]; exact hE
      rw [hE2]
      dsimp only
      have hsub : ∀ j ∈ v, j ∈ v1 := by
        intro j hj
        have := sizeOfRef_vis h f v r j hj
        rw [hE] at this
        exact this
      have hrem : remWeight h v1 ≤ remWeight h v := remWeight_mono h v v1 hsub
      have h2 : sizeOfProps h f v1 kvs = sizeOfProps h (f + 1) v1 kvs :=
        sizeOfProps_stable h hnd f v1 kvs (by simp at hb; omega)
      rw [h2]

end

theorem sizeOfRef_stable_add (h : Heap) (hnd : (h.map Prod.fst).Nodup)
    (fuel : Nat) (v : List Nat) (r : HRef) (hlt : remWeight h v < fuel) :
    ∀ k : Nat, sizeOfRef h fuel v r = sizeOfRef h (fuel + k) v r := by
  intro k
  induction k with
  | zero => rfl
  | succ k ih =>
      rw [ih, show fuel + (k + 1) = (fuel + k) + 1 from rfl]
      exact sizeOfRef_stable h hnd (fuel + k) v r (by omega)

mutual

/-- Fuel consumed along any path of `sizeOf` over the heap fragment of an
encoded tree; equals the fragment's heap weight. -/
def needV : JVal → Nat
  | .jnull => 0
  | .jbool _ => 0
  | .jnum _ => 0
  | .jstr _ => 0
  | .jbig _ => 0
  | .jarr xs => 2 + needL xs
  | .jobj kvs => 2 + needE kvs

def needL : JList → Nat
  | .nil => 0
  | .cons x xs => 1 + needV x + needL xs

def needE : JEnts → Nat
  | .nil => 0
  | .cons _ v kvs => 1 + needV v + needE kvs

end

theorem heapWeight_append (a b : Heap) :
    heapWeight (a ++ b) = heapWeight a + heapWeight b := by
  unfold heapWeight
  simp

mutual

theorem heapWeight_encodeVal : ∀ (t : JVal) (n : Nat),
    heapWeight (encodeVal t n).1 = needV t
  | .jnull, _ => rfl
  | .jbool _, _ => rfl
  | .jnum _, _ => rfl
  | .jstr _, _ => rfl
  | .jbig _, _ => rfl
  | .jarr xs, n => by
      rcases hE : encodeList xs (n + 1) with ⟨hs, refs, m⟩
      have ih := heapWeight_encodeList xs (n + 1)
      rw [hE] at ih
      have hlen := encodeList_refsLen xs (n + 1)
      rw [hE] at hlen
      simp only [encodeVal, hE]
      unfold heapWeight at ih ⊢
      simp only [List.map_cons, List.sum_cons]
      rw [show pairWeight (n, .harr refs) = 2 + refs.length from rfl]
      rw [ih]
      rw [show needV (.jarr xs) = 2 + needL xs from rfl]
      have : refs.length = xs.len := hlen
      rw [this]
      have hln := needL_len xs
      omega
  | .jobj kvs, n => by
      rcases hE : encodeEnts kvs (n + 1) with ⟨hs, props, m⟩
      have ih := heapWeight_encodeEnts kvs (n + 1)
      rw [hE] at ih
      have hlen := encodeEnts_propsLen kvs (n + 1)
      rw [hE] at hlen
      simp only [encodeVal, hE]
      unfold heapWeight at ih ⊢
      simp only [List.map_cons, List.sum_cons]
      rw [show pairWeight (n, .hobj props) = 2 + props.length from rfl]
      rw [ih]
      rw [show needV (.jobj kvs) = 2 + needE kvs from rfl]
      have : props.length = kvs.len := hlen
      rw [this]
      have hln := needE_len kvs
      omega

theorem heapWeight_encodeList : ∀ (xs : JList) (n : Nat),
    heapWeight (encodeList xs n).1 = needL xs - xs.len
  | .nil, _ => rfl
  | .cons x xs, n => by
      rcases h1 : encodeVal x n with ⟨hx, r, m1⟩
      rcases h2 : encodeList xs m1 with ⟨hrest, refs, m2⟩
      have ih1 := heapWeight_encodeVal x n
      rw [h1] at ih1
      have ih2 := heapWeight_encodeList xs m1
      rw [h2] at ih2
      simp only [encodeList, h1, h2]
      rw [heapWeight_append]
      simp only at ih1 ih2
      rw [ih1, ih2]
      rw [show needL (.cons x xs) = 1 + needV x + needL xs from rfl]
      rw [show (JList.cons x xs).len = 1 + xs.len by simp [JList.len, JList.toList]; omega]
      have := needL_len xs
      omega

theorem heapWeight_encodeEnts : ∀ (kvs : JEnts) (n : Nat),
    heapWeight (encodeEnts kvs n).1 = needE kvs - kvs.len
  | .nil, _ => rfl
  | .cons k v kvs, n => by
      rcases h1 : encodeVal v n with ⟨hx, r, m1⟩
      rcases h2 : encodeEnts kvs m1 with ⟨hrest, props, m2⟩
      have ih1 := heapWeight_encodeVal v n
      rw [h1] at ih1
      have ih2 := heapWeight_encodeEnts kvs m1
      rw [h2] at ih2
      simp only [encodeEnts, h1, h2]
      rw [heapWeight_append]
      simp only at ih1 ih2
      rw [ih1, ih2]
      rw [show needE (.cons k v kvs) = 1 + needV v + needE kvs from rfl]
      rw [show (JEnts.cons k v kvs).len = 1 + kvs.len by simp [JEnts.len, JEnts.toList]; omega]
      have := needE_len kvs
      omega

theorem encodeList_refsLen : ∀ (xs : JList) (n : Nat),
    (encodeList xs n).2.1.length = xs.len
  | .nil, _ => rfl
  | .cons x xs, n => by
      rcases h1 : encodeVal x n with ⟨hx, r, m1⟩
      rcases h2 : encodeList xs m1 with ⟨hrest, refs, m2⟩
      have ih := encodeList_refsLen xs m1
      rw [h2] at ih
      simp only [encodeList, h1, h2]
      simp only at ih
      simp [JList.len, JList.toList] at ih ⊢
      exact ih

theorem encodeEnts_propsLen : ∀ (kvs : JEnts) (n : Nat),
    (encodeEnts kvs n).2.1.length = kvs.len
  | .nil, _ => rfl
  | .cons k v kvs, n => by
      rcases h1 : encodeVal v n with ⟨hx, r, m1⟩
      rcases h2 : encodeEnts kvs m1 with ⟨hrest, props, m2⟩
      have ih := encodeEnts_propsLen kvs m1
      rw [h2] at ih
      simp only [encodeEnts, h1, h2]
      simp only at ih
      simp [JEnts.len, JEnts.toList] at ih ⊢
      exact ih

theorem needL_len : ∀ xs : JList, xs.len ≤ needL xs
  | .nil => by simp [JList.len, JList.toList, needL]
  | .cons x xs => by
      have := needL_len xs
      simp [JList.len, JList.toList, needL] at this ⊢
      omega

theorem needE_len : ∀ kvs : JEnts, kvs.len ≤ needE kvs
  | .nil => by simp [JEnts.len, JEnts.toList, needE]
  | .cons k v kvs => by
      have := needE_len kvs
      simp [JEnts.len, JEnts.toList, needE] at this ⊢
      omega

end

mutual

theorem encodeVal_range : ∀ (t : JVal) (n : Nat),
    n ≤ (encodeVal t n).2.2 ∧
    ∀ q ∈ (encodeVal t n).1, n ≤ q.1 ∧ q.1 < (encodeVal t n).2.2
  | .jnull, n => ⟨Nat.le_refl n, by intro q hq; simp [encodeVal] at hq⟩
  | .jbool _, n => ⟨Nat.le_refl n, by intro q hq; simp [encodeVal] at hq⟩
  | .jnum _, n => ⟨Nat.le_refl n, by intro q hq; simp [encodeVal] at hq⟩
  | .jstr _, n => ⟨Nat.le_refl n, by intro q hq; simp [encodeVal] at hq⟩
  | .jbig _, n => ⟨Nat.le_refl n, by intro q hq; simp [encodeVal] at hq⟩
  | .jarr xs, n => by
      rcases hE : encodeList xs (n + 1) with ⟨hs, refs, m⟩
      have ih := encodeList_range xs (n + 1)
      rw [hE] at ih
      simp only at ih
      rcases ih with ⟨ihle, ihmem⟩
      simp only [encodeVal, hE]
      refine ⟨by omega, ?_⟩
      intro q hq
      rcases List.mem_cons.mp hq with hq | hq
      · subst hq
        simp
        omega
      · have := ihmem q hq
        omega
  | .jobj kvs, n => by
      rcases hE : encodeEnts kvs (n + 1) with ⟨hs, props, m⟩
      have ih := encodeEnts_range kvs (n + 1)
      rw [hE] at ih
      simp only at ih
      rcases ih with ⟨ihle, ihmem⟩
      simp only [encodeVal, hE]
      refine ⟨by omega, ?_⟩
      intro q hq
      rcases List.mem_cons.mp hq with hq | hq
      · subst hq
        simp
        omega
      · have := ihmem q hq
        omega

theorem encodeList_range : ∀ (xs : JList) (n : Nat),
    n ≤ (encodeList xs n).2.2 ∧
    ∀ q ∈ (encodeList xs n).1, n ≤ q.1 ∧ q.1 < (encodeList xs n).2.2
  | .nil, n => ⟨Nat.le_refl n, by intro q hq; simp [encodeList] at hq⟩
  | .cons x xs, n => by
      rcases h1 : encodeVal x n with ⟨hx, r, m1⟩
      rcases h2 : encodeList xs m1 with ⟨hrest, refs, m2⟩
      have ih1 := encodeVal_range x n
      rw [h1] at ih1
      have ih2 := encodeList_range xs m1
      rw [h2] at ih2
      simp only at ih1 ih2
      rcases ih1 with ⟨ih1le, ih1mem⟩
      rcases ih2 with ⟨ih2le, ih2mem⟩
      simp only [encodeList, h1, h2]
      refine ⟨by omega, ?_⟩
      intro q hq
      rcases List.mem_append.mp hq with hq | hq
      · have := ih1mem q hq
        omega
      · have := ih2mem q hq
        omega

theorem encodeEnts_range : ∀ (kvs : JEnts) (n : Nat),
    n ≤ (encodeEnts kvs n).2.2 ∧
    ∀ q ∈ (encodeEnts kvs n).1, n ≤ q.1 ∧ q.1 < (encodeEnts kvs n).2.2
  | .nil, n => ⟨Nat.le_refl n, by intro q hq; simp [encodeEnts] at hq⟩
  | .cons k v kvs, n => by
      rcases h1 : encodeVal v n with ⟨hx, r, m1⟩
      rcases h2 : encodeEnts kvs m1 with ⟨hrest, props, m2⟩
      have ih1 := encodeVal_range v n
      rw [h1] at ih1
      have ih2 := encodeEnts_range kvs m1
      rw [h2] at ih2
      simp only at ih1 ih2
      rcases ih1 with ⟨ih1le, ih1mem⟩
      rcases ih2 with ⟨ih2le, ih2mem⟩
      simp only [encodeEnts, h1, h2]
      refine ⟨by omega, ?_⟩
      intro q hq
      rcases List.mem_append.mp hq with hq | hq
      · have := ih1mem q hq
        omega
      · have := ih2mem q hq
        omega

end

mutual

theorem encodeVal_nodup : ∀ (t : JVal) (n : Nat),
    ((encodeVal t n).1.map Prod.fst).Nodup
  | .jnull, n => by simp [encodeVal]
  | .jbool _, n => by simp [encodeVal]
  | .jnum _, n => by simp [encodeVal]
  | .jstr _, n => by simp [encodeVal]
  | .jbig _, n => by simp [encodeVal]
  | .jarr xs, n => by
      rcases hE : encodeList xs (n + 1) with ⟨hs, refs, m⟩
      have ih := encodeList_nodup xs (n + 1)
      rw [hE] at ih
      have hrange := encodeList_range xs (n + 1)
      rw [hE] at hrange
      simp only at ih hrange
      simp only [encodeVal, hE, List.map_cons]
      rw [List.nodup_cons]
      refine ⟨?_, ih⟩
      intro hmem
      rcases List.mem_map.mp hmem with ⟨q, hq, hq1⟩
      have := hrange.2 q hq
      omega
  | .jobj kvs, n => by
      rcases hE : encodeEnts kvs (n + 1) with ⟨hs, props, m⟩
      have ih := encodeEnts_nodup kvs (n + 1)
      rw [hE] at ih
      have hrange := encodeEnts_range kvs (n + 1)
      rw [hE] at hrange
      simp only at ih hrange
      simp only [encodeVal, hE, List.map_cons]
      rw [List.nodup_cons]
      refine ⟨?_, ih⟩
      intro hmem
      rcases List.mem_map.mp hmem with ⟨q, hq, hq1⟩
      have := hrange.2 q hq
      omega

theorem encodeList_nodup : ∀ (xs : JList) (n : Nat),
    ((encodeList xs n).1.map Prod.fst).Nodup
  | .nil, n => by simp [encodeList]
  | .cons x xs, n => by
      rcases h1 : encodeVal x n with ⟨hx, r, m1⟩
      rcases h2 : encodeList xs m1 with ⟨hrest, refs, m2⟩
      have ih1 := encodeVal_nodup x n
      rw [h1] at ih1
      have ih2 := encodeList_nodup xs m1
      rw [h2] at ih2
      have hr1 := encodeVal_range x n
      rw [h1] at hr1
      have hr2 := encodeList_range xs m1
      rw [h2] at hr2
      simp only at ih1 ih2 hr1 hr2
      simp only [encodeList, h1, h2, List.map_append]
      rw [List.nodup_append]
      refine ⟨ih1, ih2, ?_⟩
      intro a ha hb
      rcases List.mem_map.mp ha with ⟨q, hq, hq1⟩
      rcases List.mem_map.mp hb with ⟨q', hq', hq1'⟩
      have h3 := hr1.2 q hq
      have h4 := hr2.2 q' hq'
      omega

theorem encodeEnts_nodup : ∀ (kvs : JEnts) (n : Nat),
    ((encodeEnts kvs n).1.map Prod.fst).Nodup
  | .nil, n => by simp [encodeEnts]
  | .cons k v kvs, n => by
      rcases h1 : encodeVal v n with ⟨hx, r, m1⟩
      rcases h2 : encodeEnts kvs m1 with ⟨hrest, props, m2⟩
      have ih1 := encodeVal_nodup v n
      rw [h1] at ih1
      have ih2 := encodeEnts_nodup kvs m1
      rw [h2] at ih2
      have hr1 := encodeVal_range v n
      rw [h1] at hr1
      have hr2 := encodeEnts_range kvs m1
      rw [h2] at hr2
      simp only at ih1 ih2 hr1 hr2
      simp only [encodeEnts, h1, h2, List.map_append]
      rw [List.nodup_append]
      refine ⟨ih1, ih2, ?_⟩
      intro a ha hb
      rcases List.mem_map.mp ha with ⟨q, hq, hq1⟩
      rcases List.mem_map.mp hb with ⟨q', hq', hq1'⟩
      have h3 := hr1.2 q hq
      have h4 := hr2.2 q' hq'
      omega

end

mutual

theorem sizeOfRef_encodeVal : ∀ (t : JVal) (n : Nat) (H : Heap) (fuel : Nat) (v : List Nat),
    (∀ q ∈ (encodeVal t n).1, lookupNode H q.1 = some q.2) →
    (∀ q ∈ (encodeVal t n).1, q.1 ∉ v) →
    needV t < fuel →
    ∃ v', sizeOfRef H fuel v (encodeVal t n).2.1 = (specCost t, v') ∧
      ∀ j, j ∈ v' ↔ (j ∈ (encodeVal t n).1.map Prod.fst ∨ j ∈ v)
  | .jnull, n, H, fuel, v => by
      intro hcont hfresh hfuel
      exact ⟨v, by simp [encodeVal, sizeOfRef, specCost], by intro j; simp [encodeVal]⟩
  | .jbool b, n, H, fuel, v => by
      intro hcont hfresh hfuel
      exact ⟨v, by simp [encodeVal, sizeOfRef, specCost], by intro j; simp [encodeVal]⟩
  | .jnum x, n, H, fuel, v => by
      intro hcont hfresh hfuel
      exact ⟨v, by simp [encodeVal, sizeOfRef, specCost], by intro j; simp [encodeVal]⟩
  | .jstr s, n, H, fuel, v => by
      intro hcont hfresh hfuel
      exact ⟨v, by simp [encodeVal, sizeOfRef, specCost], by intro j; simp [encodeVal]⟩
  | .jbig x, n, H, fuel, v => by
      intro hcont hfresh hfuel
      exact ⟨v, by simp [encodeVal, sizeOfRef, specCost], by intro j; simp [encodeVal]⟩
  | .jarr xs, n, H, fuel, v => by
      intro hcont hfresh hfuel
      rcases hE : encodeList xs (n + 1) with ⟨hs, refs, m⟩
      have hfrag : (encodeVal (.jarr xs) n).1 = (n, .harr refs) :: hs := by
        simp [encodeVal, hE]
      have href : (encodeVal (.jarr xs) n).2.1 = .hptr n := by
        simp [encodeVal, hE]
      rw [hfrag] at hcont hfresh
      rw [href, hfrag]
      have hlk : lookupNode H n = some (.harr refs) :=
        hcont (n, .harr refs) (List.mem_cons_self _ _)
      have hnv : n ∉ v := hfresh (n, .harr refs) (List.mem_cons_self _ _)
      have hneed : needV (.jarr xs) = 2 + needL xs := rfl
      obtain ⟨f, rfl⟩ : ∃ f, fuel = f + 2 := ⟨fuel - 2, by omega⟩
      have hrange := encodeList_range xs (n + 1)
      rw [hE] at hrange
      simp only at hrange
      have ihl := sizeOfRefs_encodeList xs (n + 1) H f (n :: v)
        (by
          intro q hq
          rw [hE] at hq
          exact hcont q (List.mem_cons_of_mem _ hq))
        (by
          intro q hq
          rw [hE] at hq
          have hr := hrange.2 q hq
          intro hmem
          rcases List.mem_cons.mp hmem with hmem | hmem
          · omega
          · exact hfresh q (List.mem_cons_of_mem _ hq) hmem)
        (by omega)
      rcases ihl with ⟨v', hV, hIff⟩
      rw [hE] at hV hIff
      simp only at hV hIff
      refine ⟨v', ?_, ?_⟩
      · show sizeOfRef H (f + 2) v (.hptr n) = _
        rw [show f + 2 = (f + 1) + 1 from rfl]
        simp only [sizeOfRef]
        rw [if_neg (by simpa using hnv), hlk]
        simp only [sizeOfNode]
        rw [hV]
        rfl
      · intro j
        rw [hIff j]
        simp only [List.map_cons, List.mem_cons]
        tauto
  | .jobj kvs, n, H, fuel, v => by
      intro hcont hfresh hfuel
      rcases hE : encodeEnts kvs (n + 1) with ⟨hs, props, m⟩
      have hfrag : (encodeVal (.jobj kvs) n).1 = (n, .hobj props) :: hs := by
        simp [encodeVal, hE]
      have href : (encodeVal (.jobj kvs) n).2.1 = .hptr n := by
        simp [encodeVal, hE]
      rw [hfrag] at hcont hfresh
      rw [href, hfrag]
      have hlk : lookupNode H n = some (.hobj props) :=
        hcont (n, .hobj props) (List.mem_cons_self _ _)
      have hnv : n ∉ v := hfresh (n, .hobj props) (List.mem_cons_self _ _)
      have hneed : needV (.jobj kvs) = 2 + needE kvs := rfl
      obtain ⟨f, rfl⟩ : ∃ f, fuel = f + 2 := ⟨fuel - 2, by omega⟩
      have hrange := encodeEnts_range kvs (n + 1)
      rw [hE] at hrange
      simp only at hrange
      have ihl := sizeOfProps_encodeEnts kvs (n + 1) H f (n :: v)
        (by
          intro q hq
          rw [hE] at hq
          exact hcont q (List.mem_cons_of_mem _ hq))
        (by
          intro q hq
          rw [hE] at hq
          have hr := hrange.2 q hq
          intro hmem
          rcases List.mem_cons.mp hmem with hmem | hmem
          · omega
          · exact hfresh q (List.mem_cons_of_mem _ hq) hmem)
        (by omega)
      rcases ihl with ⟨v', hV, hIff⟩
      rw [hE] at hV hIff
      simp only at hV hIff
      refine ⟨v', ?_, ?_⟩
      · show sizeOfRef H (f + 2) v (.hptr n) = _
        rw [show f + 2 = (f + 1) + 1 from rfl]
        simp only [sizeOfRef]
        rw [if_neg (by simpa using hnv), hlk]
        simp only [sizeOfNode]
        rw [hV]
        rfl
      · intro j
        rw [hIff j]
        simp only [List.map_cons, List.mem_cons]
        tauto

theorem sizeOfRefs_encodeList : ∀ (xs : JList) (n : Nat) (H : Heap) (fuel : Nat) (v : List Nat),
    (∀ q ∈ (encodeList xs n).1, lookupNode H q.1 = some q.2) →
    (∀ q ∈ (encodeList xs n).1, q.1 ∉ v) →
    needL xs < fuel →
    ∃ v', sizeOfRefs H fuel v (encodeList xs n).2.1 = (specCostL xs, v') ∧
      ∀ j, j ∈ v' ↔ (j ∈ (encodeList xs n).1.map Prod.fst ∨ j ∈ v)
  | .nil, n, H, fuel, v => by
      intro hcont hfresh hfuel
      exact ⟨v, by simp [encodeList, sizeOfRefs, specCostL], by intro j; simp [encodeList]⟩
  | .cons x xs, n, H, fuel, v => by
      intro hcont hfresh hfuel
      rcases h1 : encodeVal x n with ⟨hx, r, m1⟩
      rcases h2 : encodeList xs m1 with ⟨hrest, refs, m2⟩
      have hfrag : (encodeList (.cons x xs) n).1 = hx ++ hrest := by
        simp [encodeList, h1, h2]
      have hrefs : (encodeList (.cons x xs) n).2.1 = r :: refs := by
        simp [encodeList, h1, h2]
      rw [hfrag] at hcont hfresh
      rw [hrefs, hfrag]
      have hr1 := encodeVal_range x n
      rw [h1] at hr1
      have hr2 := encodeList_range xs m1
      rw [h2] at hr2
      simp only at hr1 hr2
      have hneed : needL (.cons x xs) = 1 + needV x + needL xs := rfl
      obtain ⟨f, rfl⟩ : ∃ f, fuel = f + 1 := ⟨fuel - 1, by omega⟩
      have ih1 := sizeOfRef_encodeVal x n H f v
        (by
          intro q hq
          rw [h1] at hq
          exact hcont q (List.mem_append_left _ hq))
        (by
          intro q hq
          rw [h1] at hq
          exact hfresh q (List.mem_append_left _ hq))
        (by omega)
      rcases ih1 with ⟨v1, hV1, hIff1⟩
      rw [h1] at hV1 hIff1
      simp only at hV1 hIff1
      have ih2 := sizeOfRefs_encodeList xs m1 H f v1
        (by
          intro q hq
          rw [h2] at hq
          exact hcont q (List.mem_append_right _ hq))
        (by
          intro q hq
          rw [h2] at hq
          have hqr := hr2.2 q hq
          intro hmem
          rw [hIff1 q.1] at hmem
          rcases hmem with hmem | hmem
          · rcases List.mem_map.mp hmem with ⟨p, hp, hp1⟩
            have := hr1.2 p hp
            omega
          · exact hfresh q (List.mem_append_right _ hq) hmem)
        (by omega)
      rcases ih2 with ⟨v2, hV2, hIff2⟩
      rw [h2] at hV2 hIff2
      simp only at hV2 hIff2
      refine ⟨v2, ?_, ?_⟩
      · simp only [sizeOfRefs]
        rw [hV1]
        dsimp only
        rw [hV2]
        rfl
      · intro j
        rw [hIff2 j]
        simp only [List.map_append, List.mem_append]
        constructor
        · intro hj
          rcases hj with hj | hj
          · exact Or.inl (Or.inr hj)
          · rw [hIff1 j] at hj
            rcases hj with hj | hj
            · exact Or.inl (Or.inl hj)
            · exact Or.inr hj
        · intro hj
          rcases hj with (hj | hj) | hj
          · exact Or.inr (by rw [hIff1 j]; exact Or.inl hj)
          · exact Or.inl hj
          · exact Or.inr (by rw [hIff1 j]; exact Or.inr hj)

theorem sizeOfProps_encodeEnts : ∀ (kvs : JEnts) (n : Nat) (H : Heap) (fuel : Nat) (v : List Nat),
    (∀ q ∈ (encodeEnts kvs n).1, lookupNode H q.1 = some q.2) →
    (∀ q ∈ (encodeEnts kvs n).1, q.1 ∉ v) →
    needE kvs < fuel →
    ∃ v', sizeOfProps H fuel v (encodeEnts kvs n).2.1 = (specCostE kvs, v') ∧
      ∀ j, j ∈ v' ↔ (j ∈ (encodeEnts kvs n).1.map Prod.fst ∨ j ∈ v)
  | .nil, n, H, fuel, v => by
      intro hcont hfresh hfuel
      exact ⟨v, by simp [encodeEnts, sizeOfProps, specCostE], by intro j; simp [encodeEnts]⟩
  | .cons k x kvs, n, H, fuel, v => by
      intro hcont hfresh hfuel
      rcases h1 : encodeVal x n with ⟨hx, r, m1⟩
      rcases h2 : encodeEnts kvs m1 with ⟨hrest, props, m2⟩
      have hfrag : (encodeEnts (.cons k x kvs) n).1 = hx ++ hrest := by
        simp [encodeEnts, h1, h2]
      have hprops : (encodeEnts (.cons k x kvs) n).2.1 = (k, r) :: props := by
        simp [encodeEnts, h1, h2]
      rw [hfrag] at hcont hfresh
      rw [hprops, hfrag]
      have hr1 := encodeVal_range x n
      rw [h1] at hr1
      have hr2 := encodeEnts_range kvs m1
      rw [h2] at hr2
      simp only at hr1 hr2
      have hneed : needE (.cons k x kvs) = 1 + needV x + needE kvs := rfl
      obtain ⟨f, rfl⟩ : ∃ f, fuel = f + 1 := ⟨fuel - 1, by omega⟩
      have ih1 := sizeOfRef_encodeVal x n H f v
        (by
          intro q hq
          rw [h1] at hq
          exact hcont q (List.mem_append_left _ hq))
        (by
          intro q hq
          rw [h1] at hq
          exact hfresh q (List.mem_append_left _ hq))
        (by omega)
      rcases ih1 with ⟨v1, hV1, hIff1⟩
      rw [h1] at hV1 hIff1
      simp only at hV1 hIff1
      have ih2 := sizeOfProps_encodeEnts kvs m1 H f v1
        (by
          intro q hq
          rw [h2] at hq
          exact hcont q (List.mem_append_right _ hq))
        (by
          intro q hq
          rw [h2] at hq
          have hqr := hr2.2 q hq
          intro hmem
          rw [hIff1 q.1] at hmem
          rcases hmem with hmem | hmem
          · rcases List.mem_map.mp hmem with ⟨p, hp, hp1⟩
            have := hr1.2 p hp
            omega
          · exact hfresh q (List.mem_append_right _ hq) hmem)
        (by omega)
      rcases ih2 with ⟨v2, hV2, hIff2⟩
      rw [h2] at hV2 hIff2
      simp only at hV2 hIff2
      refine ⟨v2, ?_, ?_⟩
      · simp only [sizeOfProps]
        rw [hV1]
        dsimp only
        rw [hV2]
        rfl
      · intro j
        rw [hIff2 j]
        simp only [List.map_append, List.mem_append]
        constructor
        · intro hj
          rcases hj with hj | hj
          · exact Or.inl (Or.inr hj)
          · rw [hIff1 j] at hj
            rcases hj with hj | hj
            · exact Or.inl (Or.inl hj)
            · exact Or.inr hj
        · intro hj
          rcases hj with (hj | hj) | hj
          · exact Or.inr (by rw [hIff1 j]; exact Or.inl hj)
          · exact Or.inl hj
          · exact Or.inr (by rw [hIff1 j]; exact Or.inr hj)

end

theorem lookupNode_of_mem : ∀ (h : Heap), (h.map Prod.fst).Nodup →
    ∀ i nd, (i, nd) ∈ h → lookupNode h i = some nd
  | [], _, i, nd => by simp
  | p :: hs, hnd, i, nd => by
      intro hmem
      rcases List.mem_cons.mp hmem with hmem | hmem
      · subst hmem
        simp [lookupNode]
      · have hnd' : (hs.map Prod.fst).Nodup := by
          rw [List.map_cons] at hnd
          exact (List.nodup_cons.mp hnd).2
        have hne : ¬ (p.1 == i) = true := by
          simp only [beq_iff_eq]
          intro he
          have hin : i ∈ hs.map Prod.fst := List.mem_map.mpr ⟨(i, nd), hmem, rfl⟩
          rw [List.map_cons] at hnd
          exact (List.nodup_cons.mp hnd).1 (he ▸ hin)
        have hrec := lookupNode_of_mem hs hnd' i nd hmem
        have hne' : (p.1 == i) = false := by simpa using hne
        simp only [lookupNode] at hrec ⊢
        rw [List.find?_cons, hne']
        exact hrec

theorem approxHeap_encode_arr (xs : JList) :
    approximateObjectSizeHeap (encodeVal (.jarr xs) 0).1 (encodeVal (.jarr xs) 0).2.1
      = specCost (.jarr xs) := by
  have href : (encodeVal (.jarr xs) 0).2.1 = .hptr 0 := by
    rcases hE : encodeList xs 1 with ⟨a, b, c⟩
    simp [encodeVal, hE]
  have hw : remWeight (encodeVal (.jarr xs) 0).1 [] = needV (.jarr xs) := by
    rw [remWeight_nil_visited, heapWeight_encodeVal]
  have hnd := encodeVal_nodup (.jarr xs) 0
  have hcont : ∀ q ∈ (encodeVal (.jarr xs) 0).1,
      lookupNode (encodeVal (.jarr xs) 0).1 q.1 = some q.2 := by
    intro q hq
    exact lookupNode_of_mem _ hnd q.1 q.2 (by rwa [Prod.mk.eta])
  have hmain := sizeOfRef_encodeVal (.jarr xs) 0 (encodeVal (.jarr xs) 0).1
    (needV (.jarr xs) + 1) [] hcont (by simp) (by omega)
  rcases hmain with ⟨v', hV, _⟩
  rw [href] at hV
  rw [href]
  simp only [approximateObjectSizeHeap]
  rw [hw, hV]

theorem approxHeap_encode_obj (kvs : JEnts) :
    approximateObjectSizeHeap (encodeVal (.jobj kvs) 0).1 (encodeVal (.jobj kvs) 0).2.1
      = specCost (.jobj kvs) := by
  have href : (encodeVal (.jobj kvs) 0).2.1 = .hptr 0 := by
    rcases hE : encodeEnts kvs 1 with ⟨a, b, c⟩
    simp [encodeVal, hE]
  have hw : remWeight (encodeVal (.jobj kvs) 0).1 [] = needV (.jobj kvs) := by
    rw [remWeight_nil_visited, heapWeight_encodeVal]
  have hnd := encodeVal_nodup (.jobj kvs) 0
  have hcont : ∀ q ∈ (encodeVal (.jobj kvs) 0).1,
      lookupNode (encodeVal (.jobj kvs) 0).1 q.1 = some q.2 := by
    intro q hq
    exact lookupNode_of_mem _ hnd q.1 q.2 (by rwa [Prod.mk.eta])
  have hmain := sizeOfRef_encodeVal (.jobj kvs) 0 (encodeVal (.jobj kvs) 0).1
    (needV (.jobj kvs) + 1) [] hcont (by simp) (by omega)
  rcases hmain with ⟨v', hV, _⟩
  rw [href] at hV
  rw [href]
  simp only [approximateObjectSizeHeap]
  rw [hw, hV]

/-- C7: the size estimate satisfies the spec's cost recursion, and its
visited-set bookkeeping makes it well defined on arbitrary (even cyclic)
heaps.  Conjunct 1: on the heap image of any tree value the estimate equals
the recursive cost `specCost` written from the spec's words (null/boolean 4,
number 8, string 2·length, composite 8 plus children, mapping keys
2·keyLength).  Conjunct 2: on any heap whose addresses are distinct —
including heaps with reference cycles, where each address contributes once
because the visited set suppresses revisits — the fuel-indexed recursion is
stable once the fuel exceeds the weight of the unvisited part, so the
JS recursion terminates and the estimate is a well-defined number. -/
theorem c7 :
    (∀ t : JVal,
      approximateObjectSizeHeap (encodeVal t 0).1 (encodeVal t 0).2.1 = specCost t) ∧
    (∀ (h : Heap) (fuel k : Nat) (v : List Nat) (r : HRef),
      (h.map Prod.fst).Nodup → remWeight h v < fuel →
      sizeOfRef h fuel v r = sizeOfRef h (fuel + k) v r) := by
  constructor
  · intro t
    cases t with
    | jnull => rfl
    | jbool b => rfl
    | jnum x => rfl
    | jstr s => rfl
    | jbig x => rfl
    | jarr xs => exact approxHeap_encode_arr xs
    | jobj kvs => exact approxHeap_encode_obj kvs
  · intro h fuel k v r hnd hlt
    exact sizeOfRef_stable_add h hnd fuel v r hlt k

/-- Witness for C7 at concrete inputs: the tree `[0, "ab"]`, and the cyclic
one-node heap whose array points back to itself. -/
theorem c7_witness :
    approximateObjectSizeHeap
        (encodeVal (.jarr (.cons (.jnum 0) (.cons (.jstr "ab") .nil))) 0).1
        (encodeVal (.jarr (.cons (.jnum 0) (.cons (.jstr "ab") .nil))) 0).2.1
      = specCost (.jarr (.cons (.jnum 0) (.cons (.jstr "ab") .nil))) ∧
    sizeOfRef [(0, .harr [.hptr 0, .hnum 5])] 5 [] (.hptr 0)
      = sizeOfRef [(0, .harr [.hptr 0, .hnum 5])] (5 + 3) [] (.hptr 0) :=
  ⟨c7.1 _, c7.2 [(0, .harr [.hptr 0, .hnum 5])] 5 3 [] (.hptr 0)
    (by simp) (by simp [remWeight, pairWeight, nodeLen])⟩
